import Mathlib

/-!
Verification of the lazy recursive Replace transducer
(`src/rustfst/src/algorithms/replace.rs`).

The engine (`ReplaceFstImpl` together with `compute_start`, `expand`,
`compute_final`, `compute_final_arc`, `compute_arc` and construction via
`ReplaceFstImpl::new` / `ReplaceFstOptions::new`) is embedded shallowly:
the interior-mutability of the Rust code (state tables mutated behind `&self`)
becomes explicit state passing, `Fallible` results and `unwrap` panics become
`Except String`, and machine integers become `Nat`.  The state-table interner
and the expansion cache live in the repository's cache module, which is not
part of the provided sources; those two components are modelled from the
specification (their definitions say so in their doc comments).
-/

namespace RustfstReplace

abbrev Label := Nat

abbrev StateId := Nat

/-- A transition of a weighted FST: input label, output label, weight, target
state (the `Arc` struct of the source). -/
structure Tr (W : Type) where
  ilabel : Label
  olabel : Label
  weight : W
  nextstate : StateId
deriving DecidableEq

/-- A component weighted FST, as consumed by the Replace engine.  `final_weight`
is total and defined exactly on final states, and `start` is optional, following
the collaborator contract of the specification. -/
structure Fst (W : Type) where
  num_states : Nat
  start : Option StateId
  final_weight : StateId → Option W
  arcs : StateId → List (Tr W)

/-- Modelled from the spec: the collaborator surface `is_final(q) -> bool` of a
component wFST (the trait implementations are not under src); per the contract,
`final_weight` is defined exactly when `is_final`. -/
def Fst.is_final {W : Type} (f : Fst W) (q : StateId) : Bool :=
  (f.final_weight q).isSome

/-- Modelled from the spec: the collaborator surface `transitions(q)` of a
component wFST (the trait implementations are not under src).  Querying a state
the component never advertised fails with `ComponentStateOutOfRange`, which the
engine propagates unchanged. -/
def Fst.arcs_iter {W : Type} (f : Fst W) (q : StateId) : Except String (List (Tr W)) :=
  if q < f.num_states then .ok (f.arcs q) else .error "ComponentStateOutOfRange"

/-- First index (from `n`) at which `k` occurs in the list, if any. -/
def idxFrom {K : Type} [DecidableEq K] (k : K) : List K → Nat → Option Nat
  | [], _ => none
  | x :: xs, n => if x = k then some n else idxFrom k xs (n + 1)

/-- Modelled from the spec: the bidirectional interner (`StateTable` of the
cache module, which is not under src).  It keeps the vector of keys in order of
first reference; identifiers are dense and assigned in that order. -/
structure StateTable (K : Type) where
  keys : List K

/-- Modelled from the spec: `find_id(k)` returns the existing identifier for
`k`, or assigns the next unused identifier and stores `k`. -/
def StateTable.find_id {K : Type} [DecidableEq K] (t : StateTable K) (k : K) :
    Nat × StateTable K :=
  match idxFrom k t.keys 0 with
  | some i => (i, t)
  | none => (t.keys.length, ⟨t.keys ++ [k]⟩)

/-- Modelled from the spec: `find_tuple(i)` returns the key stored for an
issued identifier `i` and panics on an identifier never issued (here: `none`). -/
def StateTable.find_tuple {K : Type} (t : StateTable K) (i : Nat) : Option K :=
  t.keys.get? i

/-- What labels to put on the call or return arc (`ReplaceLabelType`). -/
inductive ReplaceLabelType where
  | ReplaceLabelNeither
  | ReplaceLabelInput
  | ReplaceLabelOutput
  | ReplaceLabelBoth
deriving DecidableEq

/-- Returns true if the label type results in an epsilon input label. -/
def epsilon_on_input (label_type : ReplaceLabelType) : Bool :=
  label_type = ReplaceLabelType.ReplaceLabelNeither ||
    label_type = ReplaceLabelType.ReplaceLabelOutput

/-- Returns true if the label type results in an epsilon output label. -/
def epsilon_on_output (label_type : ReplaceLabelType) : Bool :=
  label_type = ReplaceLabelType.ReplaceLabelNeither ||
    label_type = ReplaceLabelType.ReplaceLabelInput

/-- Configuration of the Replace engine (`ReplaceFstOptions`). -/
structure ReplaceFstOptions where
  root : Label
  call_label_type : ReplaceLabelType
  return_label_type : ReplaceLabelType
  call_output_label : Option Label
  return_label : Label
deriving DecidableEq

/-- The ergonomic constructor `ReplaceFstOptions::new(root, epsilon_on_replace)`. -/
def ReplaceFstOptions.new (root : Label) (epsilon_on_replace : Bool) : ReplaceFstOptions :=
  ⟨root,
   if epsilon_on_replace then ReplaceLabelType.ReplaceLabelNeither
     else ReplaceLabelType.ReplaceLabelInput,
   ReplaceLabelType.ReplaceLabelNeither,
   if epsilon_on_replace then some 0 else none,
   0⟩

/-- One return frame of the call stack (`PrefixTuple`): the calling component
and the state where control resumes there. -/
structure StackFrame where
  fst_id : Option Label
  nextstate : Option StateId
deriving DecidableEq

/-- The call stack of pending return frames (`ReplaceStackPrefix`). -/
structure ReplaceStack where
  frames : List StackFrame
deriving DecidableEq

/-- `push` of `ReplaceStackPrefix`. -/
def ReplaceStack.push (s : ReplaceStack) (fst_id : Option Label)
    (nextstate : Option StateId) : ReplaceStack :=
  ⟨s.frames ++ [⟨fst_id, nextstate⟩]⟩

/-- `pop` of `ReplaceStackPrefix`. -/
def ReplaceStack.pop (s : ReplaceStack) : ReplaceStack :=
  ⟨s.frames.dropLast⟩

/-- `top` of `ReplaceStackPrefix`; the source unwraps, so an empty stack panics
(here: `none`). -/
def ReplaceStack.top (s : ReplaceStack) : Option StackFrame :=
  s.frames.getLast?

/-- The tuple identifying a result state (`ReplaceStateTuple`): interned stack
identifier, component index, state in that component. -/
structure ReplaceStateTuple where
  pfx_id : Nat
  fst_id : Option Label
  fst_state : Option StateId
deriving DecidableEq

/-- The Replace engine state (`ReplaceFstImpl`): configuration, component
array, non-terminal bookkeeping and the two interners.  The expansion cache of
the source lives one level up, in the facade (`ReplaceFst` below). -/
structure ReplaceFstImpl (W : Type) where
  call_label_type_ : ReplaceLabelType
  return_label_type_ : ReplaceLabelType
  call_output_label_ : Option Label
  return_label_ : Label
  fst_array : List (Fst W)
  nonterminal_set : List Label
  nonterminal_hash : Label → Option Nat
  root : Nat
  pfx_table : StateTable ReplaceStack
  tuple_table : StateTable ReplaceStateTuple

/-- Ordered-set insertion (the `BTreeSet::insert` used for `nonterminal_set`).
Keeps the list strictly sorted without duplicates. -/
def insertSorted (l : Label) : List Label → List Label
  | [] => [l]
  | x :: xs => if l < x then l :: x :: xs else if l = x then x :: xs else x :: insertSorted l xs

/-- The registration loop of `ReplaceFstImpl::new`: for each `(label, fst)`
pair, in order, map `label` to the current length of the component array, add
`label` to the ordered set, and push the component. -/
def registerComponents {W : Type} :
    List (Label × Fst W) → List (Fst W) × List Label × (Label → Option Nat) →
      List (Fst W) × List Label × (Label → Option Nat)
  | [], acc => acc
  | (label, f) :: rest, (arr, sset, hash) =>
    registerComponents rest
      (arr ++ [f], insertSorted label sset,
        fun l => if l = label then some arr.length else hash l)

/-- `ReplaceFstImpl::new`: normalise the label-type configuration, register the
components, and resolve the root label, failing when it is unregistered. -/
def ReplaceFstImpl.new {W : Type} (fst_list : List (Label × Fst W))
    (opts : ReplaceFstOptions) : Except String (ReplaceFstImpl W) :=
  let clt :=
    match opts.call_output_label with
    | some v => if v = 0 then ReplaceLabelType.ReplaceLabelNeither else opts.call_label_type
    | none => opts.call_label_type
  let rlt :=
    if opts.return_label = 0 then ReplaceLabelType.ReplaceLabelNeither
      else opts.return_label_type
  let acc := registerComponents fst_list ([], [], fun _ => none)
  match acc.2.2 opts.root with
  | none =>
    .error "ReplaceFstImpl: No FST corresponding to root label in the input tuple vector"
  | some r =>
    .ok ⟨clt, rlt, opts.call_output_label, opts.return_label, acc.1, acc.2.1, acc.2.2, r,
      ⟨[]⟩, ⟨[]⟩⟩

/-- `get_prefix_id`: intern a stack (mutates the engine through its interner). -/
def getPfxId {W : Type} (impl : ReplaceFstImpl W) (p : ReplaceStack) :
    Nat × ReplaceFstImpl W :=
  let r := impl.pfx_table.find_id p
  (r.1, { impl with pfx_table := r.2 })

/-- `pop_prefix`: pop the top frame and intern the result. -/
def popPfx {W : Type} (impl : ReplaceFstImpl W) (p : ReplaceStack) :
    Nat × ReplaceFstImpl W :=
  getPfxId impl p.pop

/-- `push_prefix`: push a frame and intern the result. -/
def pushPfx {W : Type} (impl : ReplaceFstImpl W) (p : ReplaceStack)
    (fst_id : Option Label) (nextstate : Option StateId) : Nat × ReplaceFstImpl W :=
  getPfxId impl (p.push fst_id nextstate)

/-- Intern a result-state tuple in the tuple table. -/
def getTupleId {W : Type} (impl : ReplaceFstImpl W) (t : ReplaceStateTuple) :
    Nat × ReplaceFstImpl W :=
  let r := impl.tuple_table.find_id t
  (r.1, { impl with tuple_table := r.2 })

/-- `ReplaceFstImpl::compute_final`: the final weight of a result state is the
component's final weight at the underlying state when the interned stack
identifier is `0`, and absent otherwise. -/
def ReplaceFstImpl.compute_final {W : Type} (impl : ReplaceFstImpl W) (state : StateId) :
    Except String (Option W) :=
  match impl.tuple_table.find_tuple state with
  | none => .error "find_tuple: identifier never issued"
  | some tuple =>
    if tuple.pfx_id = 0 then
      match tuple.fst_id with
      | none => .error "unwrap failed: fst_id is None"
      | some fid =>
        match impl.fst_array.get? fid with
        | none => .error "unwrap failed: fst_array index out of range"
        | some f =>
          match tuple.fst_state with
          | none => .error "unwrap failed: fst_state is None"
          | some q => .ok (f.final_weight q)
    else
      .ok none

/-- `ReplaceFstImpl::compute_final_arc`: when the underlying state is final and
the stack is non-empty, build the synthetic return transition targeting the
interned tuple of the popped stack and the top frame, weighted by the
component's final weight, labelled per the return-label policy. -/
def ReplaceFstImpl.compute_final_arc {W : Type} (impl : ReplaceFstImpl W) (state : StateId) :
    Except String (Option (Tr W)) × ReplaceFstImpl W :=
  match impl.tuple_table.find_tuple state with
  | none => (.error "find_tuple: identifier never issued", impl)
  | some tuple =>
    match tuple.fst_state with
    | none => (.ok none, impl)
    | some q =>
      match tuple.fst_id with
      | none => (.error "unwrap failed: fst_id is None", impl)
      | some fid =>
        match impl.fst_array.get? fid with
        | none => (.error "unwrap failed: fst_array index out of range", impl)
        | some f =>
          if f.is_final q && decide (0 < tuple.pfx_id) then
            let ilabel := if epsilon_on_input impl.return_label_type_ then 0
              else impl.return_label_
            let olabel := if epsilon_on_output impl.return_label_type_ then 0
              else impl.return_label_
            match impl.pfx_table.find_tuple tuple.pfx_id with
            | none => (.error "find_tuple: identifier never issued", impl)
            | some stack =>
              match stack.top with
              | none => (.error "unwrap failed: top of empty stack", impl)
              | some top =>
                let pr := popPfx impl stack
                let nr := getTupleId pr.2 ⟨pr.1, top.fst_id, top.nextstate⟩
                match f.final_weight q with
                | some w => (.ok (some ⟨ilabel, olabel, w, nr.1⟩), nr.2)
                | none => (.ok none, nr.2)
          else (.ok none, impl)

/-- `ReplaceFstImpl::compute_arc`: rewrite one component transition.  Output
labels equal to `0` or outside the registered non-terminal range (and in-range
labels that are not registered) are emitted unchanged toward the interned
successor tuple; registered non-terminals become call transitions toward the
callee's start, with the caller frame pushed, suppressed when the callee has no
start state. -/
def ReplaceFstImpl.compute_arc {W : Type} (impl : ReplaceFstImpl W)
    (tuple : ReplaceStateTuple) (arc : Tr W) :
    Except String (Option (Tr W)) × ReplaceFstImpl W :=
  if arc.olabel = 0 then
    let r := getTupleId impl ⟨tuple.pfx_id, tuple.fst_id, some arc.nextstate⟩
    (.ok (some ⟨arc.ilabel, arc.olabel, arc.weight, r.1⟩), r.2)
  else
    match impl.nonterminal_set.head?, impl.nonterminal_set.getLast? with
    | some nmin, some nmax =>
      if arc.olabel < nmin || nmax < arc.olabel then
        let r := getTupleId impl ⟨tuple.pfx_id, tuple.fst_id, some arc.nextstate⟩
        (.ok (some ⟨arc.ilabel, arc.olabel, arc.weight, r.1⟩), r.2)
      else
        match impl.nonterminal_hash arc.olabel with
        | some nonterminal =>
          match impl.pfx_table.find_tuple tuple.pfx_id with
          | none => (.error "find_tuple: identifier never issued", impl)
          | some p =>
            let pr := pushPfx impl p tuple.fst_id (some arc.nextstate)
            match pr.2.fst_array.get? nonterminal with
            | none => (.error "unwrap failed: fst_array index out of range", pr.2)
            | some ntFst =>
              match ntFst.start with
              | some nt_start =>
                let nr := getTupleId pr.2 ⟨pr.1, some nonterminal, some nt_start⟩
                let ilabel := if epsilon_on_input impl.call_label_type_ then 0
                  else arc.ilabel
                let olabel := if epsilon_on_output impl.call_label_type_ then 0
                  else impl.call_output_label_.getD arc.olabel
                (.ok (some ⟨ilabel, olabel, arc.weight, nr.1⟩), nr.2)
              | none => (.ok none, pr.2)
        | none =>
          let r := getTupleId impl ⟨tuple.pfx_id, tuple.fst_id, some arc.nextstate⟩
          (.ok (some ⟨arc.ilabel, arc.olabel, arc.weight, r.1⟩), r.2)
    | _, _ => (.error "unwrap failed: empty nonterminal set", impl)

/-- The per-transition loop of `ReplaceFstImpl::expand`: rewrite each component
transition in native order, collecting the emitted transitions in order. -/
def expandLoop {W : Type} (tuple : ReplaceStateTuple) :
    ReplaceFstImpl W → List (Tr W) → Except String (List (Tr W)) × ReplaceFstImpl W
  | impl, [] => (.ok [], impl)
  | impl, arc :: rest =>
    match impl.compute_arc tuple arc with
    | (.error e, impl₁) => (.error e, impl₁)
    | (.ok oa, impl₁) =>
      match expandLoop tuple impl₁ rest with
      | (.error e, impl₂) => (.error e, impl₂)
      | (.ok tail, impl₂) => (.ok (oa.toList ++ tail), impl₂)

/-- `ReplaceFstImpl::expand`: the synthetic return transition (if any) is
produced first, then the rewrites of the component transitions of the
underlying state, in their native order. -/
def ReplaceFstImpl.expand {W : Type} (impl : ReplaceFstImpl W) (state : StateId) :
    Except String (List (Tr W)) × ReplaceFstImpl W :=
  match impl.tuple_table.find_tuple state with
  | none => (.error "find_tuple: identifier never issued", impl)
  | some tuple =>
    match tuple.fst_state with
    | none => (.ok [], impl)
    | some fst_state =>
      match impl.compute_final_arc state with
      | (.error e, impl₁) => (.error e, impl₁)
      | (.ok oret, impl₁) =>
        match tuple.fst_id with
        | none => (.error "unwrap failed: fst_id is None", impl₁)
        | some fid =>
          match impl₁.fst_array.get? fid with
          | none => (.error "unwrap failed: fst_array index out of range", impl₁)
          | some f =>
            match f.arcs_iter fst_state with
            | .error e => (.error e, impl₁)
            | .ok arcs =>
              match expandLoop tuple impl₁ arcs with
              | (.error e, impl₂) => (.error e, impl₂)
              | (.ok rewritten, impl₂) => (.ok (oret.toList ++ rewritten), impl₂)

/-- `ReplaceFstImpl::compute_start`: no components means no start; otherwise
intern the empty stack and the tuple of the root component's start state. -/
def ReplaceFstImpl.compute_start {W : Type} (impl : ReplaceFstImpl W) :
    Except String (Option StateId) × ReplaceFstImpl W :=
  if impl.fst_array.isEmpty then (.ok none, impl)
  else
    match impl.fst_array.get? impl.root with
    | none => (.error "unwrap failed: fst_array index out of range", impl)
    | some rootFst =>
      match rootFst.start with
      | some fst_start =>
        let pr := getPfxId impl ⟨[]⟩
        let sr := getTupleId pr.2 ⟨pr.1, some impl.root, some fst_start⟩
        (.ok (some sr.1), sr.2)
      | none => (.ok none, impl)

/-- Modelled from the spec: the per-state expansion cache (`CacheImpl` of the
cache module, which is not under src).  Each state slot records whether the
state was expanded, its transition list and its final weight; one slot holds
the start state. -/
structure CacheImpl (W : Type) where
  expandedF : StateId → Bool
  trsCache : StateId → List (Tr W)
  finalCache : StateId → Option W
  startComputed : Bool
  startCache : Option StateId

/-- The lazy facade (`ReplaceFst`): engine plus expansion cache. -/
structure ReplaceFst (W : Type) where
  fst_impl : ReplaceFstImpl W
  cache : CacheImpl W

/-- Modelled from the spec: the transition query of the lazy facade (the
`dynamic_fst` adapter, which is not under src).  A miss runs the engine's
expansion; the computed transitions are appended to the cache only when the
engine has computed them successfully, so a failed expansion leaves the cache
unchanged and surfaces the engine's error untransformed. -/
def ReplaceFst.trsOp {W : Type} (r : ReplaceFst W) (s : StateId) :
    Except String (List (Tr W)) × ReplaceFst W :=
  if r.cache.expandedF s then (.ok (r.cache.trsCache s), r)
  else
    match r.fst_impl.expand s with
    | (.error e, impl₁) => (.error e, ⟨impl₁, r.cache⟩)
    | (.ok arcs, impl₁) =>
      (.ok arcs,
        ⟨impl₁,
         ⟨fun t => if t = s then true else r.cache.expandedF t,
          fun t => if t = s then arcs else r.cache.trsCache t,
          fun t => if t = s then
              (match impl₁.compute_final s with | .ok w => w | .error _ => none)
            else r.cache.finalCache t,
          r.cache.startComputed, r.cache.startCache⟩⟩)

/-- Modelled from the spec: the final-weight query of the lazy facade.  As with
transitions, the cache is written only after a fully successful expansion. -/
def ReplaceFst.finalOp {W : Type} (r : ReplaceFst W) (s : StateId) :
    Except String (Option W) × ReplaceFst W :=
  if r.cache.expandedF s then (.ok (r.cache.finalCache s), r)
  else
    match r.fst_impl.expand s with
    | (.error e, impl₁) => (.error e, ⟨impl₁, r.cache⟩)
    | (.ok arcs, impl₁) =>
      match impl₁.compute_final s with
      | .error e => (.error e, ⟨impl₁, r.cache⟩)
      | .ok w =>
        (.ok w,
          ⟨impl₁,
           ⟨fun t => if t = s then true else r.cache.expandedF t,
            fun t => if t = s then arcs else r.cache.trsCache t,
            fun t => if t = s then w else r.cache.finalCache t,
            r.cache.startComputed, r.cache.startCache⟩⟩)

/-- Engine states reachable from a successful construction through the
operations that mutate the interners. -/
inductive Reachable {W : Type} : ReplaceFstImpl W → Prop where
  | new_ok : ∀ (fst_list : List (Label × Fst W)) (opts : ReplaceFstOptions)
      (impl : ReplaceFstImpl W),
      ReplaceFstImpl.new fst_list opts = .ok impl → Reachable impl
  | step_start : ∀ impl : ReplaceFstImpl W, Reachable impl →
      Reachable impl.compute_start.2
  | step_expand : ∀ (impl : ReplaceFstImpl W) (s : StateId), Reachable impl →
      Reachable (impl.expand s).2

/-- The pure-terminal rewrite, written from the specification's words: emit
`(i, o, w, s')` where `s' = intern((p, c, q'))`, labels and weight unchanged. -/
def pureTerminalRewrite {W : Type} (impl : ReplaceFstImpl W) (tuple : ReplaceStateTuple)
    (arc : Tr W) : Except String (Option (Tr W)) × ReplaceFstImpl W :=
  let r := getTupleId impl ⟨tuple.pfx_id, tuple.fst_id, some arc.nextstate⟩
  (.ok (some ⟨arc.ilabel, arc.olabel, arc.weight, r.1⟩), r.2)

/-! ### Extension: engine operations only append to the interners and leave the
configuration, component array and non-terminal bookkeeping unchanged. -/

structure Ext {W : Type} (a b : ReplaceFstImpl W) : Prop where
  pfx : ∃ r, b.pfx_table.keys = a.pfx_table.keys ++ r
  tup : ∃ r, b.tuple_table.keys = a.tuple_table.keys ++ r
  clt : b.call_label_type_ = a.call_label_type_
  rlt : b.return_label_type_ = a.return_label_type_
  col : b.call_output_label_ = a.call_output_label_
  rl : b.return_label_ = a.return_label_
  arr : b.fst_array = a.fst_array
  nset : b.nonterminal_set = a.nonterminal_set
  nhash : b.nonterminal_hash = a.nonterminal_hash
  rt : b.root = a.root

/-! ### The reachable-state invariant: interner keys are duplicate-free, every
issued tuple refers to an issued stack identifier, and identifier `0` of the
stack interner always denotes the empty stack. -/

def Inv {W : Type} (impl : ReplaceFstImpl W) : Prop :=
  impl.pfx_table.keys.Nodup ∧ impl.tuple_table.keys.Nodup ∧
    (∀ t ∈ impl.tuple_table.keys, t.pfx_id < impl.pfx_table.keys.length) ∧
    (impl.pfx_table.keys ≠ [] → impl.pfx_table.keys.get? 0 = some ⟨[]⟩) ∧
    (impl.tuple_table.keys ≠ [] → impl.pfx_table.keys ≠ [])

instance {W : Type} (impl : ReplaceFstImpl W) : Decidable (Inv impl) := by
  unfold Inv
  infer_instance

/-- The non-terminal bookkeeping facts the rewrite logic relies on: the ordered
set is strictly sorted and contains every label the hash resolves. -/
def Coherent {W : Type} (impl : ReplaceFstImpl W) : Prop :=
  impl.nonterminal_set.Sorted (· < ·) ∧
    ∀ o c, impl.nonterminal_hash o = some c → o ∈ impl.nonterminal_set

/-! ### Concrete instances used by witnesses and counterexamples -/

/-- Component `A`: two states, start `0`, state `1` final with weight `7`, one
transition `0 → 1` with input `1`, output `20` (a non-terminal) and weight `3`. -/
def Away : Fst Nat :=
  ⟨2, some 0, fun q => if q = 1 then some 7 else none,
    fun q => if q = 0 then [⟨1, 20, 3, 1⟩] else []⟩

/-- Component `B`: one state, start `0`, final with weight `5`, no transitions. -/
def Bway : Fst Nat :=
  ⟨1, some 0, fun q => if q = 0 then some 5 else none, fun _ => []⟩

def listW : List (Label × Fst Nat) := [(10, Away), (20, Bway)]

def optsW : ReplaceFstOptions := ReplaceFstOptions.new 10 false

def junkImpl : ReplaceFstImpl Nat :=
  ⟨.ReplaceLabelNeither, .ReplaceLabelNeither, none, 0, [], [], fun _ => none, 0, ⟨[]⟩, ⟨[]⟩⟩

def getImpl (e : Except String (ReplaceFstImpl Nat)) : ReplaceFstImpl Nat :=
  match e with
  | .ok i => i
  | .error _ => junkImpl

def implW0 : ReplaceFstImpl Nat := getImpl (ReplaceFstImpl.new listW optsW)

def implW1 : ReplaceFstImpl Nat := implW0.compute_start.2

def implW2 : ReplaceFstImpl Nat := (implW1.expand 0).2

def implW3 : ReplaceFstImpl Nat := (implW2.expand 1).2

/-- The ergonomic epsilon-on-replace configuration over the same components. -/
def optsE : ReplaceFstOptions := ReplaceFstOptions.new 10 true

def implE0 : ReplaceFstImpl Nat := getImpl (ReplaceFstImpl.new listW optsE)

def implE1 : ReplaceFstImpl Nat := implE0.compute_start.2

def implE2 : ReplaceFstImpl Nat := (implE1.expand 0).2

/-- A faulty collaborator: it advertises one state but its only transition
leads to state `5`, which it never advertised. -/
def Fault : Fst Nat :=
  ⟨1, some 0, fun _ => none, fun q => if q = 0 then [⟨1, 1, 0, 5⟩] else []⟩

def listF : List (Label × Fst Nat) := [(10, Fault)]

def implF0 : ReplaceFstImpl Nat := getImpl (ReplaceFstImpl.new listF (ReplaceFstOptions.new 10 false))

def implF1 : ReplaceFstImpl Nat := implF0.compute_start.2

def implF2 : ReplaceFstImpl Nat := (implF1.expand 0).2

def cacheEmpty : CacheImpl Nat := ⟨fun _ => false, fun _ => [], fun _ => none, false, none⟩

def rFault : ReplaceFst Nat := ⟨implF2, cacheEmpty⟩

/-- A single-component grammar whose start state branches to two states with
mirror-image transition orders toward states `3` and `4`. -/
def Cway : Fst Nat :=
  ⟨5, some 0, fun _ => none,
    fun q =>
      if q = 0 then [⟨1, 1, 0, 1⟩, ⟨2, 2, 0, 2⟩]
      else if q = 1 then [⟨3, 3, 0, 3⟩, ⟨4, 4, 0, 4⟩]
      else if q = 2 then [⟨4, 4, 0, 4⟩, ⟨3, 3, 0, 3⟩]
      else []⟩

def listC : List (Label × Fst Nat) := [(10, Cway)]

def implC0 : ReplaceFstImpl Nat := getImpl (ReplaceFstImpl.new listC (ReplaceFstOptions.new 10 false))

def implC1 : ReplaceFstImpl Nat := implC0.compute_start.2

def implC2 : ReplaceFstImpl Nat := (implC1.expand 0).2

def implC2b : ReplaceFstImpl Nat := (implC2.expand 2).2

/-- A trivial component used to exercise `compute_arc` directly on a
freshly-constructed instance. -/
def Dway : Fst Nat := ⟨1, some 0, fun _ => none, fun _ => []⟩

def listD : List (Label × Fst Nat) := [(10, Dway)]

def implD0 : ReplaceFstImpl Nat := getImpl (ReplaceFstImpl.new listD (ReplaceFstOptions.new 10 false))

/-! ### Interner lemmas -/

theorem idxFrom_some {K : Type} [DecidableEq K] :
    ∀ (l : List K) (n m : Nat) (k : K), idxFrom k l n = some m →
      n ≤ m ∧ l.get? (m - n) = some k := by
  intro l
  induction l with
  | nil => intro n m k h; exact absurd h (by simp [idxFrom])
  | cons x xs ih =>
    intro n m k h
    rw [idxFrom] at h
    split at h
    · rename_i hx
      injection h with h
      subst h
      refine ⟨le_refl _, ?_⟩
      simp [hx]
    · rename_i hx
      obtain ⟨h1, h2⟩ := ih (n + 1) m k h
      refine ⟨by omega, ?_⟩
      have hmn : m - n = (m - (n + 1)) + 1 := by omega
      rw [hmn]
      simpa using h2

theorem idxFrom_none {K : Type} [DecidableEq K] :
    ∀ (l : List K) (n : Nat) (k : K), idxFrom k l n = none → k ∉ l := by
  intro l
  induction l with
  | nil => intro n k _ hmem; simp at hmem
  | cons x xs ih =>
    intro n k h hmem
    rw [idxFrom] at h
    split at h
    · exact Option.noConfusion h
    · rename_i hx
      rcases List.mem_cons.mp hmem with h1 | h1
      · exact hx h1.symm
      · exact ih (n + 1) k h h1

theorem idxFrom_nodup_get? {K : Type} [DecidableEq K] :
    ∀ (l : List K) (i n : Nat) (k : K), l.Nodup → l.get? i = some k →
      idxFrom k l n = some (n + i) := by
  intro l
  induction l with
  | nil => intro i n k _ h; simp at h
  | cons x xs ih =>
    intro i n k hnd h
    rw [idxFrom]
    cases i with
    | zero =>
      have hx : x = k := by simpa using h
      simp [hx]
    | succ j =>
      have hk : xs.get? j = some k := by simpa using h
      have hxk : ¬x = k := by
        intro he
        subst he
        exact (List.nodup_cons.mp hnd).1 (List.get?_mem hk)
      rw [if_neg hxk, ih j (n + 1) k (List.nodup_cons.mp hnd).2 hk]
      congr 1
      omega

theorem get?_append_some {K : Type} :
    ∀ (l r : List K) (i : Nat) (x : K), l.get? i = some x → (l ++ r).get? i = some x := by
  intro l
  induction l with
  | nil => intro r i x h; simp at h
  | cons a as ih =>
    intro r i x h
    cases i with
    | zero => simpa using h
    | succ j => exact ih r j x (by simpa using h)

theorem get?_some_lt {K : Type} :
    ∀ (l : List K) (i : Nat) (x : K), l.get? i = some x → i < l.length := by
  intro l
  induction l with
  | nil => intro i x h; simp at h
  | cons a as ih =>
    intro i x h
    cases i with
    | zero => simp
    | succ j => exact Nat.succ_lt_succ (ih j x (by simpa using h))

theorem find_id_keys {K : Type} [DecidableEq K] (t : StateTable K) (k : K) :
    ∃ r, (t.find_id k).2.keys = t.keys ++ r := by
  unfold StateTable.find_id
  split
  · exact ⟨[], by simp⟩
  · exact ⟨[k], rfl⟩

theorem find_id_get {K : Type} [DecidableEq K] (t : StateTable K) (k : K) :
    (t.find_id k).2.keys.get? (t.find_id k).1 = some k := by
  unfold StateTable.find_id
  split
  · rename_i i h
    simpa using (idxFrom_some t.keys 0 i k h).2
  · exact List.get?_concat_length t.keys k

theorem find_id_lt {K : Type} [DecidableEq K] (t : StateTable K) (k : K) :
    (t.find_id k).1 < (t.find_id k).2.keys.length :=
  get?_some_lt _ _ _ (find_id_get t k)

theorem find_id_nodup {K : Type} [DecidableEq K] (t : StateTable K) (k : K)
    (hnd : t.keys.Nodup) : (t.find_id k).2.keys.Nodup := by
  unfold StateTable.find_id
  split
  · exact hnd
  · rename_i h
    have hk : k ∉ t.keys := idxFrom_none t.keys 0 k h
    refine List.nodup_append.mpr ⟨hnd, List.nodup_singleton k, ?_⟩
    intro a ha hb
    rw [List.mem_singleton] at hb
    exact hk (hb ▸ ha)

theorem find_id_replay {K : Type} [DecidableEq K] {t t₁ t₂ : StateTable K} {k : K} {i : Nat}
    (h : t.find_id k = (i, t₁)) (hext : ∃ r, t₂.keys = t₁.keys ++ r)
    (hnd : t₂.keys.Nodup) : t₂.find_id k = (i, t₂) := by
  have hget : t₁.keys.get? i = some k := by
    have hg := find_id_get t k
    rw [h] at hg
    exact hg
  obtain ⟨r, hr⟩ := hext
  have hget₂ : t₂.keys.get? i = some k := by
    rw [hr]
    exact get?_append_some _ _ _ _ hget
  have hidx : idxFrom k t₂.keys 0 = some (0 + i) := idxFrom_nodup_get? _ _ _ _ hnd hget₂
  unfold StateTable.find_id
  rw [hidx]
  simp

theorem ext_refl {W : Type} (a : ReplaceFstImpl W) : Ext a a :=
  ⟨⟨[], by simp⟩, ⟨[], by simp⟩, rfl, rfl, rfl, rfl, rfl, rfl, rfl, rfl⟩

theorem ext_trans {W : Type} {a b c : ReplaceFstImpl W} (h₁ : Ext a b) (h₂ : Ext b c) :
    Ext a c := by
  obtain ⟨r₁, hr₁⟩ := h₁.pfx
  obtain ⟨r₂, hr₂⟩ := h₂.pfx
  obtain ⟨s₁, hs₁⟩ := h₁.tup
  obtain ⟨s₂, hs₂⟩ := h₂.tup
  refine ⟨⟨r₁ ++ r₂, ?_⟩, ⟨s₁ ++ s₂, ?_⟩, h₂.clt.trans h₁.clt, h₂.rlt.trans h₁.rlt,
    h₂.col.trans h₁.col, h₂.rl.trans h₁.rl, h₂.arr.trans h₁.arr, h₂.nset.trans h₁.nset,
    h₂.nhash.trans h₁.nhash, h₂.rt.trans h₁.rt⟩
  · rw [hr₂, hr₁, List.append_assoc]
  · rw [hs₂, hs₁, List.append_assoc]

theorem getPfxId_ext {W : Type} (impl : ReplaceFstImpl W) (p : ReplaceStack) :
    Ext impl (getPfxId impl p).2 := by
  obtain ⟨r, hr⟩ := find_id_keys impl.pfx_table p
  exact ⟨⟨r, hr⟩, ⟨[], by simp [getPfxId]⟩, rfl, rfl, rfl, rfl, rfl, rfl, rfl, rfl⟩

theorem getTupleId_ext {W : Type} (impl : ReplaceFstImpl W) (t : ReplaceStateTuple) :
    Ext impl (getTupleId impl t).2 := by
  obtain ⟨r, hr⟩ := find_id_keys impl.tuple_table t
  exact ⟨⟨[], by simp [getTupleId]⟩, ⟨r, hr⟩, rfl, rfl, rfl, rfl, rfl, rfl, rfl, rfl⟩

theorem pushPfx_ext {W : Type} (impl : ReplaceFstImpl W) (p : ReplaceStack)
    (f : Option Label) (n : Option StateId) : Ext impl (pushPfx impl p f n).2 :=
  getPfxId_ext impl (p.push f n)

theorem popPfx_ext {W : Type} (impl : ReplaceFstImpl W) (p : ReplaceStack) :
    Ext impl (popPfx impl p).2 :=
  getPfxId_ext impl p.pop

theorem compute_arc_ext {W : Type} (impl : ReplaceFstImpl W) (tuple : ReplaceStateTuple)
    (arc : Tr W) : Ext impl (impl.compute_arc tuple arc).2 := by
  unfold ReplaceFstImpl.compute_arc
  by_cases h0 : arc.olabel = 0
  · rw [if_pos h0]
    exact getTupleId_ext impl _
  · rw [if_neg h0]
    rcases hh : impl.nonterminal_set.head? with _ | nmin
    all_goals rcases hl : impl.nonterminal_set.getLast? with _ | nmax
    all_goals dsimp only
    · exact ext_refl impl
    · exact ext_refl impl
    · exact ext_refl impl
    · by_cases hrange : arc.olabel < nmin || nmax < arc.olabel
      · rw [if_pos hrange]
        exact getTupleId_ext impl _
      · rw [if_neg hrange]
        rcases hnt : impl.nonterminal_hash arc.olabel with _ | nonterminal
        all_goals dsimp only
        · exact getTupleId_ext impl _
        · rcases hp : impl.pfx_table.find_tuple tuple.pfx_id with _ | p
          all_goals dsimp only
          · exact ext_refl impl
          · rcases ha : (pushPfx impl p tuple.fst_id (some arc.nextstate)).2.fst_array.get?
                nonterminal with _ | ntFst
            all_goals dsimp only
            · exact pushPfx_ext impl p tuple.fst_id (some arc.nextstate)
            · rcases hs : ntFst.start with _ | nt_start
              all_goals dsimp only
              · exact pushPfx_ext impl p tuple.fst_id (some arc.nextstate)
              · exact ext_trans (pushPfx_ext impl p tuple.fst_id (some arc.nextstate))
                  (getTupleId_ext _ _)

theorem compute_final_arc_ext {W : Type} (impl : ReplaceFstImpl W) (state : StateId) :
    Ext impl (impl.compute_final_arc state).2 := by
  unfold ReplaceFstImpl.compute_final_arc
  rcases ht : impl.tuple_table.find_tuple state with _ | tuple
  all_goals dsimp only
  · exact ext_refl impl
  · rcases hq : tuple.fst_state with _ | q
    all_goals dsimp only
    · exact ext_refl impl
    · rcases hf : tuple.fst_id with _ | fid
      all_goals dsimp only
      · exact ext_refl impl
      · rcases hg : impl.fst_array.get? fid with _ | f
        all_goals dsimp only
        · exact ext_refl impl
        · by_cases hfin : f.is_final q && decide (0 < tuple.pfx_id)
          · rw [if_pos hfin]
            rcases hp : impl.pfx_table.find_tuple tuple.pfx_id with _ | stack
            all_goals dsimp only
            · exact ext_refl impl
            · rcases htop : stack.top with _ | top
              all_goals dsimp only
              · exact ext_refl impl
              · rcases hw : f.final_weight q with _ | w
                all_goals dsimp only
                · exact ext_trans (popPfx_ext impl stack) (getTupleId_ext _ _)
                · exact ext_trans (popPfx_ext impl stack) (getTupleId_ext _ _)
          · rw [if_neg hfin]
            exact ext_refl impl

theorem expandLoop_ext {W : Type} (tuple : ReplaceStateTuple) :
    ∀ (arcs : List (Tr W)) (impl : ReplaceFstImpl W),
      Ext impl (expandLoop tuple impl arcs).2 := by
  intro arcs
  induction arcs with
  | nil => intro impl; exact ext_refl impl
  | cons a rest ih =>
    intro impl
    rw [expandLoop]
    split
    · rename_i e impl₁ h
      have h₁ : Ext impl (impl.compute_arc tuple a).2 := compute_arc_ext impl tuple a
      rw [h] at h₁
      exact h₁
    · rename_i oa impl₁ h
      have h₁ : Ext impl (impl.compute_arc tuple a).2 := compute_arc_ext impl tuple a
      rw [h] at h₁
      have h₂ := ih impl₁
      split
      · rename_i e impl₂ h₂'
        rw [h₂'] at h₂
        exact ext_trans h₁ h₂
      · rename_i tl impl₂ h₂'
        rw [h₂'] at h₂
        exact ext_trans h₁ h₂

theorem expand_ext {W : Type} (impl : ReplaceFstImpl W) (state : StateId) :
    Ext impl (impl.expand state).2 := by
  unfold ReplaceFstImpl.expand
  rcases ht : impl.tuple_table.find_tuple state with _ | tuple
  all_goals dsimp only
  · exact ext_refl impl
  · rcases hq : tuple.fst_state with _ | fst_state
    all_goals dsimp only
    · exact ext_refl impl
    · have h₁ := compute_final_arc_ext impl state
      rcases hfa : impl.compute_final_arc state with ⟨res, impl₁⟩
      rw [hfa] at h₁
      rcases res with e | oret
      all_goals dsimp only
      · exact h₁
      · rcases hf : tuple.fst_id with _ | fid
        all_goals dsimp only
        · exact h₁
        · rcases hg : impl₁.fst_array.get? fid with _ | f
          all_goals dsimp only
          · exact h₁
          · rcases hai : f.arcs_iter fst_state with e | arcs
            all_goals dsimp only
            · exact h₁
            · have h₂ := expandLoop_ext tuple arcs impl₁
              rcases hel : expandLoop tuple impl₁ arcs with ⟨res₂, impl₂⟩
              rw [hel] at h₂
              rcases res₂ with e | rewritten
              all_goals dsimp only
              · exact ext_trans h₁ h₂
              · exact ext_trans h₁ h₂

theorem compute_start_ext {W : Type} (impl : ReplaceFstImpl W) :
    Ext impl impl.compute_start.2 := by
  unfold ReplaceFstImpl.compute_start
  split
  · exact ext_refl impl
  · split
    · exact ext_refl impl
    · split
      · exact ext_trans (getPfxId_ext impl _) (getTupleId_ext _ _)
      · exact ext_refl impl

theorem pfx_len_mono {W : Type} {a b : ReplaceFstImpl W} (h : Ext a b) :
    a.pfx_table.keys.length ≤ b.pfx_table.keys.length := by
  obtain ⟨r, hr⟩ := h.pfx
  rw [hr, List.length_append]
  omega

theorem find_id_keys_cases {K : Type} [DecidableEq K] (t : StateTable K) (k : K) :
    (t.find_id k).2.keys = t.keys ∨ (t.find_id k).2.keys = t.keys ++ [k] := by
  unfold StateTable.find_id
  split
  · exact Or.inl rfl
  · exact Or.inr rfl

theorem find_id_keys_of_nil {K : Type} [DecidableEq K] (t : StateTable K) (k : K)
    (h : t.keys = []) : (t.find_id k).2.keys = [k] := by
  unfold StateTable.find_id
  rw [h]
  simp [idxFrom]

theorem getPfxId_inv {W : Type} (impl : ReplaceFstImpl W) (p : ReplaceStack)
    (hinv : Inv impl) (hp : impl.pfx_table.keys ≠ [] ∨ p = ⟨[]⟩) :
    Inv (getPfxId impl p).2 := by
  obtain ⟨h1, h2, h3, h4, h5⟩ := hinv
  obtain ⟨r, hr⟩ := find_id_keys impl.pfx_table p
  refine ⟨find_id_nodup _ _ h1, h2, ?_, ?_, ?_⟩
  · intro t ht
    have := h3 t ht
    show t.pfx_id < (impl.pfx_table.find_id p).2.keys.length
    rw [hr, List.length_append]
    omega
  · intro _
    show (impl.pfx_table.find_id p).2.keys.get? 0 = some ⟨[]⟩
    by_cases hnil : impl.pfx_table.keys = []
    · have hp' : p = ⟨[]⟩ := by
        rcases hp with hp | hp
        · exact absurd hnil hp
        · exact hp
      rw [find_id_keys_of_nil _ _ hnil, hp']
      rfl
    · rw [hr]
      exact get?_append_some _ _ _ _ (h4 hnil)
  · intro htup
    show (impl.pfx_table.find_id p).2.keys ≠ []
    by_cases hnil : impl.pfx_table.keys = []
    · have hp' : p = ⟨[]⟩ := by
        rcases hp with hp | hp
        · exact absurd hnil hp
        · exact hp
      rw [find_id_keys_of_nil _ _ hnil]
      simp
    · rw [hr]
      intro hcon
      exact hnil (List.append_eq_nil.mp hcon).1

theorem getTupleId_inv {W : Type} (impl : ReplaceFstImpl W) (t : ReplaceStateTuple)
    (hinv : Inv impl) (ht : t.pfx_id < impl.pfx_table.keys.length) :
    Inv (getTupleId impl t).2 := by
  obtain ⟨h1, h2, h3, h4, h5⟩ := hinv
  refine ⟨h1, find_id_nodup _ _ h2, ?_, h4, ?_⟩
  · intro u hu
    show u.pfx_id < impl.pfx_table.keys.length
    rcases find_id_keys_cases impl.tuple_table t with hc | hc
    · have : u ∈ impl.tuple_table.keys := by
        have hu' : u ∈ (impl.tuple_table.find_id t).2.keys := hu
        rw [hc] at hu'
        exact hu'
      exact h3 u this
    · have hu' : u ∈ (impl.tuple_table.find_id t).2.keys := hu
      rw [hc] at hu'
      rcases List.mem_append.mp hu' with h | h
      · exact h3 u h
      · rw [List.mem_singleton.mp h]
        exact ht
  · intro _
    exact List.length_pos.mp (lt_of_le_of_lt (Nat.zero_le _) ht)

theorem compute_arc_inv {W : Type} (impl : ReplaceFstImpl W) (tuple : ReplaceStateTuple)
    (arc : Tr W) (hinv : Inv impl) (ht : tuple.pfx_id < impl.pfx_table.keys.length) :
    Inv (impl.compute_arc tuple arc).2 := by
  have hpne : impl.pfx_table.keys ≠ [] :=
    List.length_pos.mp (lt_of_le_of_lt (Nat.zero_le _) ht)
  unfold ReplaceFstImpl.compute_arc
  by_cases h0 : arc.olabel = 0
  · rw [if_pos h0]
    exact getTupleId_inv impl _ hinv ht
  · rw [if_neg h0]
    rcases hh : impl.nonterminal_set.head? with _ | nmin
    all_goals rcases hl : impl.nonterminal_set.getLast? with _ | nmax
    all_goals dsimp only
    · exact hinv
    · exact hinv
    · exact hinv
    · by_cases hrange : arc.olabel < nmin || nmax < arc.olabel
      · rw [if_pos hrange]
        exact getTupleId_inv impl _ hinv ht
      · rw [if_neg hrange]
        rcases hnt : impl.nonterminal_hash arc.olabel with _ | nonterminal
        all_goals dsimp only
        · exact getTupleId_inv impl _ hinv ht
        · rcases hp : impl.pfx_table.find_tuple tuple.pfx_id with _ | p
          all_goals dsimp only
          · exact hinv
          · have hinv₁ : Inv (pushPfx impl p tuple.fst_id (some arc.nextstate)).2 :=
              getPfxId_inv impl _ hinv (Or.inl hpne)
            rcases ha : (pushPfx impl p tuple.fst_id (some arc.nextstate)).2.fst_array.get?
                nonterminal with _ | ntFst
            all_goals dsimp only
            · exact hinv₁
            · rcases hs : ntFst.start with _ | nt_start
              all_goals dsimp only
              · exact hinv₁
              · exact getTupleId_inv _ _ hinv₁ (find_id_lt _ _)

theorem compute_final_arc_inv {W : Type} (impl : ReplaceFstImpl W) (state : StateId)
    (hinv : Inv impl) : Inv (impl.compute_final_arc state).2 := by
  unfold ReplaceFstImpl.compute_final_arc
  rcases ht : impl.tuple_table.find_tuple state with _ | tuple
  all_goals dsimp only
  · exact hinv
  · have htm : tuple ∈ impl.tuple_table.keys := List.get?_mem ht
    have htlt : tuple.pfx_id < impl.pfx_table.keys.length := hinv.2.2.1 tuple htm
    have hpne : impl.pfx_table.keys ≠ [] :=
      List.length_pos.mp (lt_of_le_of_lt (Nat.zero_le _) htlt)
    rcases hq : tuple.fst_state with _ | q
    all_goals dsimp only
    · exact hinv
    · rcases hf : tuple.fst_id with _ | fid
      all_goals dsimp only
      · exact hinv
      · rcases hg : impl.fst_array.get? fid with _ | f
        all_goals dsimp only
        · exact hinv
        · by_cases hfin : f.is_final q && decide (0 < tuple.pfx_id)
          · rw [if_pos hfin]
            rcases hp : impl.pfx_table.find_tuple tuple.pfx_id with _ | stack
            all_goals dsimp only
            · exact hinv
            · rcases htop : stack.top with _ | top
              all_goals dsimp only
              · exact hinv
              · have hinv₁ : Inv (popPfx impl stack).2 :=
                  getPfxId_inv impl _ hinv (Or.inl hpne)
                rcases hw : f.final_weight q with _ | w
                all_goals dsimp only
                · exact getTupleId_inv _ _ hinv₁ (find_id_lt _ _)
                · exact getTupleId_inv _ _ hinv₁ (find_id_lt _ _)
          · rw [if_neg hfin]
            exact hinv

theorem expandLoop_inv {W : Type} (tuple : ReplaceStateTuple) :
    ∀ (arcs : List (Tr W)) (impl : ReplaceFstImpl W), Inv impl →
      tuple.pfx_id < impl.pfx_table.keys.length → Inv (expandLoop tuple impl arcs).2 := by
  intro arcs
  induction arcs with
  | nil => intro impl hinv _; exact hinv
  | cons a rest ih =>
    intro impl hinv ht
    rw [expandLoop]
    have hinv₁ := compute_arc_inv impl tuple a hinv ht
    have hext₁ := compute_arc_ext impl tuple a
    rcases hca : impl.compute_arc tuple a with ⟨res, impl₁⟩
    rw [hca] at hinv₁ hext₁
    rcases res with e | oa
    all_goals dsimp only
    · exact hinv₁
    · have ht₁ : tuple.pfx_id < impl₁.pfx_table.keys.length :=
        lt_of_lt_of_le ht (pfx_len_mono hext₁)
      have h₂ := ih impl₁ hinv₁ ht₁
      rcases hel : expandLoop tuple impl₁ rest with ⟨res₂, impl₂⟩
      rw [hel] at h₂
      rcases res₂ with e | tl
      all_goals dsimp only
      · exact h₂
      · exact h₂

theorem expand_inv {W : Type} (impl : ReplaceFstImpl W) (state : StateId)
    (hinv : Inv impl) : Inv (impl.expand state).2 := by
  unfold ReplaceFstImpl.expand
  rcases ht : impl.tuple_table.find_tuple state with _ | tuple
  all_goals dsimp only
  · exact hinv
  · have htm : tuple ∈ impl.tuple_table.keys := List.get?_mem ht
    have htlt : tuple.pfx_id < impl.pfx_table.keys.length := hinv.2.2.1 tuple htm
    rcases hq : tuple.fst_state with _ | fst_state
    all_goals dsimp only
    · exact hinv
    · have hinv₁ := compute_final_arc_inv impl state hinv
      have hext₁ := compute_final_arc_ext impl state
      rcases hfa : impl.compute_final_arc state with ⟨res, impl₁⟩
      rw [hfa] at hinv₁ hext₁
      rcases res with e | oret
      all_goals dsimp only
      · exact hinv₁
      · have ht₁ : tuple.pfx_id < impl₁.pfx_table.keys.length :=
          lt_of_lt_of_le htlt (pfx_len_mono hext₁)
        rcases hf : tuple.fst_id with _ | fid
        all_goals dsimp only
        · exact hinv₁
        · rcases hg : impl₁.fst_array.get? fid with _ | f
          all_goals dsimp only
          · exact hinv₁
          · rcases hai : f.arcs_iter fst_state with e | arcs
            all_goals dsimp only
            · exact hinv₁
            · have h₂ := expandLoop_inv tuple arcs impl₁ hinv₁ ht₁
              rcases hel : expandLoop tuple impl₁ arcs with ⟨res₂, impl₂⟩
              rw [hel] at h₂
              rcases res₂ with e | rewritten
              all_goals dsimp only
              · exact h₂
              · exact h₂

theorem compute_start_inv {W : Type} (impl : ReplaceFstImpl W) (hinv : Inv impl) :
    Inv impl.compute_start.2 := by
  unfold ReplaceFstImpl.compute_start
  by_cases hemp : impl.fst_array.isEmpty
  · rw [if_pos hemp]
    exact hinv
  · rw [if_neg hemp]
    rcases hg : impl.fst_array.get? impl.root with _ | rootFst
    all_goals dsimp only
    · exact hinv
    · rcases hs : rootFst.start with _ | fst_start
      all_goals dsimp only
      · exact hinv
      · have hinv₁ : Inv (getPfxId impl ⟨[]⟩).2 := getPfxId_inv impl _ hinv (Or.inr rfl)
        exact getTupleId_inv _ _ hinv₁ (find_id_lt impl.pfx_table ⟨[]⟩)

theorem new_inv {W : Type} {fst_list : List (Label × Fst W)} {opts : ReplaceFstOptions}
    {impl : ReplaceFstImpl W} (h : ReplaceFstImpl.new fst_list opts = .ok impl) :
    Inv impl := by
  unfold ReplaceFstImpl.new at h
  dsimp only at h
  rcases hroot : (registerComponents fst_list ([], [], fun _ => none)).2.2 opts.root with _ | r
  all_goals rw [hroot] at h
  all_goals dsimp only at h
  · exact Except.noConfusion h
  · injection h with h
    subst h
    exact ⟨List.nodup_nil, List.nodup_nil, by simp, by simp, by simp⟩

theorem reachable_inv {W : Type} {impl : ReplaceFstImpl W} (h : Reachable impl) :
    Inv impl := by
  induction h with
  | new_ok fst_list opts impl hnew => exact new_inv hnew
  | step_start impl _ ih => exact compute_start_inv impl ih
  | step_expand impl s _ ih => exact expand_inv impl s ih

/-! ### The non-terminal set and hash built by construction -/

theorem mem_insertSorted (a b : Label) :
    ∀ l : List Label, b ∈ insertSorted a l ↔ b = a ∨ b ∈ l := by
  intro l
  induction l with
  | nil => simp [insertSorted]
  | cons x xs ih =>
    rw [insertSorted]
    by_cases h1 : a < x
    · rw [if_pos h1]
      simp [List.mem_cons]
    · rw [if_neg h1]
      by_cases h2 : a = x
      · rw [if_pos h2]
        subst h2
        simp only [List.mem_cons]
        tauto
      · rw [if_neg h2]
        simp only [List.mem_cons, ih]
        tauto

theorem insertSorted_sorted (a : Label) :
    ∀ l : List Label, l.Sorted (· < ·) → (insertSorted a l).Sorted (· < ·) := by
  intro l
  induction l with
  | nil => intro _; simp [insertSorted]
  | cons x xs ih =>
    intro hs
    obtain ⟨hx, hxs⟩ := List.sorted_cons.mp hs
    rw [insertSorted]
    by_cases h1 : a < x
    · rw [if_pos h1]
      refine List.sorted_cons.mpr ⟨?_, hs⟩
      intro b hb
      rcases List.mem_cons.mp hb with hb | hb
      · rw [hb]; exact h1
      · exact lt_trans h1 (hx b hb)
    · rw [if_neg h1]
      by_cases h2 : a = x
      · rw [if_pos h2]
        exact hs
      · rw [if_neg h2]
        refine List.sorted_cons.mpr ⟨?_, ih hxs⟩
        intro b hb
        rcases (mem_insertSorted a b xs).mp hb with hb | hb
        · rw [hb]
          exact lt_of_le_of_ne (Nat.le_of_not_lt h1) (fun he => h2 he.symm)
        · exact hx b hb

theorem sorted_head_le {l : List Label} (hs : l.Sorted (· < ·)) {a : Label} (ha : a ∈ l) :
    ∃ m, l.head? = some m ∧ m ≤ a := by
  cases l with
  | nil => simp at ha
  | cons x xs =>
    refine ⟨x, rfl, ?_⟩
    rcases List.mem_cons.mp ha with h | h
    · rw [h]
    · exact le_of_lt ((List.sorted_cons.mp hs).1 a h)

theorem sorted_le_getLast :
    ∀ (l : List Label) (a : Label), l.Sorted (· < ·) → a ∈ l →
      ∃ M, l.getLast? = some M ∧ a ≤ M := by
  intro l
  induction l with
  | nil => intro a _ ha; simp at ha
  | cons x xs ih =>
    intro a hs ha
    obtain ⟨hx, hxs⟩ := List.sorted_cons.mp hs
    cases xs with
    | nil =>
      rcases List.mem_cons.mp ha with h | h
      · exact ⟨x, rfl, le_of_eq h⟩
      · simp at h
    | cons y ys =>
      rw [List.getLast?_cons_cons]
      rcases List.mem_cons.mp ha with h | h
      · obtain ⟨M, hM, hyM⟩ := ih y hxs (List.mem_cons_self y ys)
        refine ⟨M, hM, ?_⟩
        have hxy : x < y := hx y (List.mem_cons_self y ys)
        subst h
        exact le_of_lt (lt_of_lt_of_le hxy hyM)
      · exact ih a hxs h

theorem registerComponents_coherent {W : Type} :
    ∀ (l : List (Label × Fst W)) (arr : List (Fst W)) (sset : List Label)
      (hash : Label → Option Nat),
      sset.Sorted (· < ·) → (∀ o c, hash o = some c → o ∈ sset) →
      (registerComponents l (arr, sset, hash)).2.1.Sorted (· < ·) ∧
        (∀ o c, (registerComponents l (arr, sset, hash)).2.2 o = some c →
          o ∈ (registerComponents l (arr, sset, hash)).2.1) := by
  intro l
  induction l with
  | nil =>
    intro arr sset hash hs hh
    exact ⟨hs, hh⟩
  | cons p rest ih =>
    intro arr sset hash hs hh
    obtain ⟨label, f⟩ := p
    rw [registerComponents]
    apply ih
    · exact insertSorted_sorted label sset hs
    · intro o c hoc
      simp only at hoc
      by_cases ho : o = label
      · exact (mem_insertSorted label o sset).mpr (Or.inl ho)
      · rw [if_neg ho] at hoc
        exact (mem_insertSorted label o sset).mpr (Or.inr (hh o c hoc))

theorem new_fields {W : Type} {fst_list : List (Label × Fst W)} {opts : ReplaceFstOptions}
    {impl : ReplaceFstImpl W} (h : ReplaceFstImpl.new fst_list opts = .ok impl) :
    impl.fst_array = (registerComponents fst_list ([], [], fun _ => none)).1 ∧
      impl.nonterminal_set = (registerComponents fst_list ([], [], fun _ => none)).2.1 ∧
      impl.nonterminal_hash = (registerComponents fst_list ([], [], fun _ => none)).2.2 ∧
      (registerComponents fst_list ([], [], fun _ => none)).2.2 opts.root = some impl.root := by
  unfold ReplaceFstImpl.new at h
  dsimp only at h
  rcases hroot : (registerComponents fst_list ([], [], fun _ => none)).2.2 opts.root with _ | r
  all_goals rw [hroot] at h
  all_goals dsimp only at h
  · exact Except.noConfusion h
  · injection h with h
    subst h
    exact ⟨rfl, rfl, rfl, rfl⟩

theorem new_coherent {W : Type} {fst_list : List (Label × Fst W)} {opts : ReplaceFstOptions}
    {impl : ReplaceFstImpl W} (h : ReplaceFstImpl.new fst_list opts = .ok impl) :
    Coherent impl := by
  obtain ⟨_, hset, hhash, _⟩ := new_fields h
  have hc := registerComponents_coherent fst_list [] [] (fun _ => none)
    (by simp) (by intro o c hoc; exact Option.noConfusion hoc)
  constructor
  · rw [hset]; exact hc.1
  · rw [hset, hhash]; exact hc.2

theorem registerComponents_hash_some {W : Type} :
    ∀ (l : List (Label × Fst W)) (arr : List (Fst W)) (sset : List Label)
      (hash : Label → Option Nat) (o : Label),
      (∃ c, (registerComponents l (arr, sset, hash)).2.2 o = some c) ↔
        (∃ c, hash o = some c) ∨ o ∈ l.map Prod.fst := by
  intro l
  induction l with
  | nil =>
    intro arr sset hash o
    constructor
    · exact fun h => Or.inl h
    · rintro (h | h)
      · exact h
      · simp at h
  | cons p rest ih =>
    intro arr sset hash o
    obtain ⟨label, f⟩ := p
    rw [registerComponents, ih]
    constructor
    · rintro (⟨c, hc⟩ | hmem)
      · by_cases ho : o = label
        · exact Or.inr (by simp [ho])
        · rw [if_neg ho] at hc
          exact Or.inl ⟨c, hc⟩
      · exact Or.inr (by simp [hmem])
    · rintro (⟨c, hc⟩ | hmem)
      · by_cases ho : o = label
        · exact Or.inl ⟨arr.length, by simp [ho]⟩
        · exact Or.inl ⟨c, by simp [ho, hc]⟩
      · simp only [List.map_cons, List.mem_cons] at hmem
        rcases hmem with hmem | hmem
        · exact Or.inl ⟨arr.length, by simp [hmem]⟩
        · exact Or.inr hmem

/-! ### Replay: re-running an operation whose interned keys are already present
returns the same identifiers and leaves the tables unchanged. -/

theorem find_id_replay' {K : Type} [DecidableEq K] {t t₂ : StateTable K} (k : K)
    (hext : ∃ r, t₂.keys = (t.find_id k).2.keys ++ r) (hnd : t₂.keys.Nodup) :
    t₂.find_id k = ((t.find_id k).1, t₂) := by
  obtain ⟨r, hr⟩ := hext
  have hget₂ : t₂.keys.get? (t.find_id k).1 = some k := by
    rw [hr]
    exact get?_append_some _ _ _ _ (find_id_get t k)
  have hidx : idxFrom k t₂.keys 0 = some (0 + (t.find_id k).1) :=
    idxFrom_nodup_get? _ _ _ _ hnd hget₂
  have hdef : t₂.find_id k =
      (match idxFrom k t₂.keys 0 with
       | some i => (i, t₂)
       | none => (t₂.keys.length, ⟨t₂.keys ++ [k]⟩)) := rfl
  rw [hdef, hidx]
  simp

theorem find_tuple_stable {K : Type} {t t₂ : StateTable K} {i : Nat} {k : K}
    (h : t.find_tuple i = some k) (hext : ∃ r, t₂.keys = t.keys ++ r) :
    t₂.find_tuple i = some k := by
  obtain ⟨r, hr⟩ := hext
  unfold StateTable.find_tuple at h ⊢
  rw [hr]
  exact get?_append_some _ _ _ _ h

theorem getTupleId_replay {W : Type} {impl impl₂ : ReplaceFstImpl W} (k : ReplaceStateTuple)
    (hext : Ext (getTupleId impl k).2 impl₂) (hnd : impl₂.tuple_table.keys.Nodup) :
    getTupleId impl₂ k = ((getTupleId impl k).1, impl₂) := by
  unfold getTupleId
  rw [find_id_replay' k hext.tup hnd]

theorem getPfxId_replay {W : Type} {impl impl₂ : ReplaceFstImpl W} (k : ReplaceStack)
    (hext : Ext (getPfxId impl k).2 impl₂) (hnd : impl₂.pfx_table.keys.Nodup) :
    getPfxId impl₂ k = ((getPfxId impl k).1, impl₂) := by
  unfold getPfxId
  rw [find_id_replay' k hext.pfx hnd]

theorem pushPfx_replay {W : Type} {impl impl₂ : ReplaceFstImpl W} (p : ReplaceStack)
    (f : Option Label) (n : Option StateId) (hext : Ext (pushPfx impl p f n).2 impl₂)
    (hnd : impl₂.pfx_table.keys.Nodup) :
    pushPfx impl₂ p f n = ((pushPfx impl p f n).1, impl₂) :=
  getPfxId_replay (p.push f n) hext hnd

theorem popPfx_replay {W : Type} {impl impl₂ : ReplaceFstImpl W} (p : ReplaceStack)
    (hext : Ext (popPfx impl p).2 impl₂) (hnd : impl₂.pfx_table.keys.Nodup) :
    popPfx impl₂ p = ((popPfx impl p).1, impl₂) :=
  getPfxId_replay p.pop hext hnd

theorem compute_arc_replay {W : Type} {impl impl₁ impl₂ : ReplaceFstImpl W}
    {tuple : ReplaceStateTuple} {arc : Tr W} {oa : Option (Tr W)}
    (h : impl.compute_arc tuple arc = (.ok oa, impl₁))
    (hext : Ext impl₁ impl₂)
    (hndp : impl₂.pfx_table.keys.Nodup) (hndt : impl₂.tuple_table.keys.Nodup) :
    impl₂.compute_arc tuple arc = (.ok oa, impl₂) := by
  have hE₀ := compute_arc_ext impl tuple arc
  rw [h] at hE₀
  have hE : Ext impl impl₂ := ext_trans hE₀ hext
  unfold ReplaceFstImpl.compute_arc at h ⊢
  by_cases h0 : arc.olabel = 0
  · rw [if_pos h0] at h ⊢
    dsimp only at h ⊢
    injection h with h1 h2
    injection h1 with h1
    have hextT : Ext (getTupleId impl ⟨tuple.pfx_id, tuple.fst_id, some arc.nextstate⟩).2 impl₂ := by
      rw [h2]
      exact hext
    rw [getTupleId_replay _ hextT hndt, ← h1]
  · rw [if_neg h0] at h ⊢
    rw [hE.nset]
    rcases hh : impl.nonterminal_set.head? with _ | nmin
    all_goals rcases hl : impl.nonterminal_set.getLast? with _ | nmax
    all_goals rw [hh, hl] at h
    all_goals dsimp only at h ⊢
    · exact absurd h (by intro hc; injection hc with hc; exact Except.noConfusion hc)
    · exact absurd h (by intro hc; injection hc with hc; exact Except.noConfusion hc)
    · exact absurd h (by intro hc; injection hc with hc; exact Except.noConfusion hc)
    · by_cases hrange : arc.olabel < nmin || nmax < arc.olabel
      · rw [if_pos hrange] at h ⊢
        try dsimp only at h ⊢
        injection h with h1 h2
        injection h1 with h1
        have hextT : Ext (getTupleId impl
            ⟨tuple.pfx_id, tuple.fst_id, some arc.nextstate⟩).2 impl₂ := by
          rw [h2]
          exact hext
        rw [getTupleId_replay _ hextT hndt, ← h1]
      · rw [if_neg hrange] at h ⊢
        rw [hE.nhash]
        rcases hnt : impl.nonterminal_hash arc.olabel with _ | nonterminal
        all_goals rw [hnt] at h
        all_goals dsimp only at h ⊢
        · injection h with h1 h2
          injection h1 with h1
          have hextT : Ext (getTupleId impl
              ⟨tuple.pfx_id, tuple.fst_id, some arc.nextstate⟩).2 impl₂ := by
            rw [h2]
            exact hext
          rw [getTupleId_replay _ hextT hndt, ← h1]
        · rcases hp : impl.pfx_table.find_tuple tuple.pfx_id with _ | p
          all_goals rw [hp] at h
          all_goals try dsimp only at h
          · exact absurd h (by intro hc; injection hc with hc; exact Except.noConfusion hc)
          · have hp₂ : impl₂.pfx_table.find_tuple tuple.pfx_id = some p :=
              find_tuple_stable hp hE.pfx
            rw [hp₂]
            dsimp only
            have harr : (pushPfx impl p tuple.fst_id (some arc.nextstate)).2.fst_array =
                impl.fst_array := rfl
            have hgarr : (pushPfx impl₂ p tuple.fst_id (some arc.nextstate)).2.fst_array =
                impl.fst_array := hE.arr
            rw [harr] at h
            rw [hgarr]
            rcases hg : impl.fst_array.get? nonterminal with _ | ntFst
            all_goals rw [hg] at h
            all_goals try dsimp only at h ⊢
            · exact absurd h (by intro hc; injection hc with hc; exact Except.noConfusion hc)
            · rcases hs : ntFst.start with _ | nt_start
              all_goals rw [hs] at h
              all_goals try dsimp only at h ⊢
              · injection h with h1 h2
                injection h1 with h1
                have hextP : Ext (pushPfx impl p tuple.fst_id (some arc.nextstate)).2 impl₂ := by
                  rw [h2]
                  exact hext
                rw [pushPfx_replay p tuple.fst_id (some arc.nextstate) hextP hndp]
                dsimp only
                rw [← h1]
              · injection h with h1 h2
                injection h1 with h1
                have hextP : Ext (pushPfx impl p tuple.fst_id (some arc.nextstate)).2 impl₂ := by
                  refine ext_trans (getTupleId_ext _
                    ⟨(pushPfx impl p tuple.fst_id (some arc.nextstate)).1, some nonterminal,
                      some nt_start⟩) ?_
                  rw [h2]
                  exact hext
                rw [pushPfx_replay p tuple.fst_id (some arc.nextstate) hextP hndp]
                dsimp only
                have hextT : Ext (getTupleId (pushPfx impl p tuple.fst_id (some arc.nextstate)).2
                    ⟨(pushPfx impl p tuple.fst_id (some arc.nextstate)).1, some nonterminal,
                      some nt_start⟩).2 impl₂ := by
                  rw [h2]
                  exact hext
                rw [getTupleId_replay _ hextT hndt]
                dsimp only
                rw [← h1, hE.clt, hE.col]

theorem compute_final_arc_replay {W : Type} {impl impl₁ impl₂ : ReplaceFstImpl W}
    {state : StateId} {oret : Option (Tr W)}
    (h : impl.compute_final_arc state = (.ok oret, impl₁))
    (hext : Ext impl₁ impl₂)
    (hndp : impl₂.pfx_table.keys.Nodup) (hndt : impl₂.tuple_table.keys.Nodup) :
    impl₂.compute_final_arc state = (.ok oret, impl₂) := by
  have hE₀ := compute_final_arc_ext impl state
  rw [h] at hE₀
  have hE : Ext impl impl₂ := ext_trans hE₀ hext
  unfold ReplaceFstImpl.compute_final_arc at h ⊢
  rcases ht : impl.tuple_table.find_tuple state with _ | tuple
  all_goals rw [ht] at h
  all_goals try dsimp only at h
  · exact absurd h (by intro hc; injection hc with hc; exact Except.noConfusion hc)
  · have ht₂ : impl₂.tuple_table.find_tuple state = some tuple := find_tuple_stable ht hE.tup
    rw [ht₂]
    dsimp only
    rcases hq : tuple.fst_state with _ | q
    all_goals rw [hq] at h
    all_goals try dsimp only at h ⊢
    · injection h with h1 h2
      injection h1 with h1
      rw [← h1]
    · rcases hf : tuple.fst_id with _ | fid
      all_goals rw [hf] at h
      all_goals try dsimp only at h ⊢
      · exact absurd h (by intro hc; injection hc with hc; exact Except.noConfusion hc)
      · rw [hE.arr]
        rcases hg : impl.fst_array.get? fid with _ | f
        all_goals rw [hg] at h
        all_goals try dsimp only at h ⊢
        · exact absurd h (by intro hc; injection hc with hc; exact Except.noConfusion hc)
        · by_cases hfin : f.is_final q && decide (0 < tuple.pfx_id)
          · rw [if_pos hfin] at h ⊢
            try dsimp only at h ⊢
            rcases hp : impl.pfx_table.find_tuple tuple.pfx_id with _ | stack
            all_goals rw [hp] at h
            all_goals try dsimp only at h
            · exact absurd h (by intro hc; injection hc with hc; exact Except.noConfusion hc)
            · have hp₂ : impl₂.pfx_table.find_tuple tuple.pfx_id = some stack :=
                find_tuple_stable hp hE.pfx
              rw [hp₂]
              dsimp only
              rcases htop : stack.top with _ | top
              all_goals rw [htop] at h
              all_goals try dsimp only at h ⊢
              · exact absurd h (by intro hc; injection hc with hc; exact Except.noConfusion hc)
              · rcases hw : f.final_weight q with _ | w
                all_goals rw [hw] at h
                all_goals try dsimp only at h ⊢
                · injection h with h1 h2
                  injection h1 with h1
                  have hextP : Ext (popPfx impl stack).2 impl₂ := by
                    refine ext_trans (getTupleId_ext _
                      ⟨(popPfx impl stack).1, top.fst_id, top.nextstate⟩) ?_
                    rw [h2]
                    exact hext
                  rw [popPfx_replay stack hextP hndp]
                  dsimp only
                  have hextT : Ext (getTupleId (popPfx impl stack).2
                      ⟨(popPfx impl stack).1, top.fst_id, top.nextstate⟩).2 impl₂ := by
                    rw [h2]
                    exact hext
                  rw [getTupleId_replay _ hextT hndt]
                  dsimp only
                  rw [← h1]
                · injection h with h1 h2
                  injection h1 with h1
                  have hextP : Ext (popPfx impl stack).2 impl₂ := by
                    refine ext_trans (getTupleId_ext _
                      ⟨(popPfx impl stack).1, top.fst_id, top.nextstate⟩) ?_
                    rw [h2]
                    exact hext
                  rw [popPfx_replay stack hextP hndp]
                  dsimp only
                  have hextT : Ext (getTupleId (popPfx impl stack).2
                      ⟨(popPfx impl stack).1, top.fst_id, top.nextstate⟩).2 impl₂ := by
                    rw [h2]
                    exact hext
                  rw [getTupleId_replay _ hextT hndt]
                  dsimp only
                  rw [← h1, hE.rlt, hE.rl]
          · rw [if_neg hfin] at h ⊢
            injection h with h1 h2
            injection h1 with h1
            rw [← h1]

theorem expandLoop_replay {W : Type} (tuple : ReplaceStateTuple) :
    ∀ (arcs : List (Tr W)) (impl impl₁ impl₂ : ReplaceFstImpl W) (out : List (Tr W)),
      expandLoop tuple impl arcs = (.ok out, impl₁) → Ext impl₁ impl₂ →
      impl₂.pfx_table.keys.Nodup → impl₂.tuple_table.keys.Nodup →
      expandLoop tuple impl₂ arcs = (.ok out, impl₂) := by
  intro arcs
  induction arcs with
  | nil =>
    intro impl impl₁ impl₂ out h hext hndp hndt
    rw [expandLoop] at h
    injection h with h1 h2
    injection h1 with h1
    rw [expandLoop, ← h1]
  | cons a rest ih =>
    intro impl impl₁ impl₂ out h hext hndp hndt
    rw [expandLoop] at h
    rcases hca : impl.compute_arc tuple a with ⟨res, i₁⟩
    rw [hca] at h
    rcases res with e | oa
    all_goals try dsimp only at h
    · exact absurd h (by intro hc; injection hc with hc; exact Except.noConfusion hc)
    · rcases hel : expandLoop tuple i₁ rest with ⟨res₂, i₂⟩
      rw [hel] at h
      rcases res₂ with e | tl
      all_goals try dsimp only at h
      · exact absurd h (by intro hc; injection hc with hc; exact Except.noConfusion hc)
      · injection h with h1 h2
        injection h1 with h1
        have hext₂ : Ext i₂ impl₂ := by
          rw [h2]
          exact hext
        have hextLoop : Ext i₁ impl₂ := by
          have hL := expandLoop_ext tuple rest i₁
          rw [hel] at hL
          exact ext_trans hL hext₂
        have hca₂ := compute_arc_replay hca hextLoop hndp hndt
        have hel₂ := ih i₁ i₂ impl₂ tl hel hext₂ hndp hndt
        rw [expandLoop, hca₂]
        dsimp only
        rw [hel₂]
        dsimp only
        rw [← h1]

theorem expand_replay {W : Type} {impl impl' : ReplaceFstImpl W} {s : StateId}
    {arcs : List (Tr W)} (h : impl.expand s = (.ok arcs, impl')) (hinv : Inv impl) :
    impl'.expand s = (.ok arcs, impl') := by
  have hinv' : Inv impl' := by
    have hi := expand_inv impl s hinv
    rw [h] at hi
    exact hi
  obtain ⟨hndp, hndt, _, _, _⟩ := hinv'
  have hE : Ext impl impl' := by
    have he := expand_ext impl s
    rw [h] at he
    exact he
  unfold ReplaceFstImpl.expand at h ⊢
  rcases ht : impl.tuple_table.find_tuple s with _ | tuple
  all_goals rw [ht] at h
  all_goals try dsimp only at h
  · exact absurd h (by intro hc; injection hc with hc; exact Except.noConfusion hc)
  · have ht₂ : impl'.tuple_table.find_tuple s = some tuple := find_tuple_stable ht hE.tup
    rw [ht₂]
    dsimp only
    rcases hq : tuple.fst_state with _ | fst_state
    all_goals rw [hq] at h
    all_goals try dsimp only at h ⊢
    · injection h with h1 h2
      injection h1 with h1
      rw [← h1]
    · rcases hfa : impl.compute_final_arc s with ⟨res, i₁⟩
      rw [hfa] at h
      rcases res with e | oret
      all_goals try dsimp only at h
      · exact absurd h (by intro hc; injection hc with hc; exact Except.noConfusion hc)
      · rcases hf : tuple.fst_id with _ | fid
        all_goals rw [hf] at h
        all_goals try dsimp only at h ⊢
        · exact absurd h (by intro hc; injection hc with hc; exact Except.noConfusion hc)
        · rcases hg : i₁.fst_array.get? fid with _ | f
          all_goals rw [hg] at h
          all_goals try dsimp only at h
          · exact absurd h (by intro hc; injection hc with hc; exact Except.noConfusion hc)
          · rcases hai : f.arcs_iter fst_state with e | carcs
            all_goals rw [hai] at h
            all_goals try dsimp only at h
            · exact absurd h (by intro hc; injection hc with hc; exact Except.noConfusion hc)
            · rcases hel : expandLoop tuple i₁ carcs with ⟨res₂, i₂⟩
              rw [hel] at h
              rcases res₂ with e | rewritten
              all_goals try dsimp only at h
              · exact absurd h (by intro hc; injection hc with hc; exact Except.noConfusion hc)
              · injection h with h1 h2
                injection h1 with h1
                have hext₂ : Ext i₂ impl' := by
                  rw [h2]
                  exact ext_refl impl'
                have hextLoop : Ext i₁ impl' := by
                  have hL := expandLoop_ext tuple carcs i₁
                  rw [hel] at hL
                  exact ext_trans hL hext₂
                have hfa₂ := compute_final_arc_replay hfa hextLoop hndp hndt
                rw [hfa₂]
                dsimp only
                have hg₂ : impl'.fst_array.get? fid = some f := by
                  rw [hextLoop.arr]
                  exact hg
                rw [hg₂]
                dsimp only
                rw [hai]
                dsimp only
                have hel₂ := expandLoop_replay tuple carcs i₁ i₂ impl' rewritten hel hext₂ hndp hndt
                rw [hel₂]
                dsimp only
                rw [← h1]

/-! ### Further helper lemmas shared by the claim theorems -/

theorem ne_nil_head?_some {l : List Label} (h : l ≠ []) : ∃ m, l.head? = some m := by
  cases l with
  | nil => exact absurd rfl h
  | cons x xs => exact ⟨x, rfl⟩

theorem ne_nil_getLast?_some : ∀ l : List Label, l ≠ [] → ∃ M, l.getLast? = some M := by
  intro l
  induction l with
  | nil => intro h; exact absurd rfl h
  | cons x xs ih =>
    intro _
    cases xs with
    | nil => exact ⟨x, rfl⟩
    | cons y ys =>
      obtain ⟨M, hM⟩ := ih (by simp)
      exact ⟨M, by rw [List.getLast?_cons_cons]; exact hM⟩

/-- In any instance satisfying the table invariant, the `prefix_id = 0` test of
`compute_final` (and the `prefix_id > 0` test of `compute_final_arc`) coincides
with emptiness of the interned stack, for every issued result state. -/
theorem inv_pfx_zero_iff {W : Type} {impl : ReplaceFstImpl W} (hinv : Inv impl)
    {s : StateId} {t : ReplaceStateTuple} {p : ReplaceStack}
    (ht : impl.tuple_table.find_tuple s = some t)
    (hp : impl.pfx_table.find_tuple t.pfx_id = some p) :
    (t.pfx_id = 0 ↔ p.frames = []) := by
  obtain ⟨hnd, _, h3, h4, _⟩ := hinv
  have htm : t ∈ impl.tuple_table.keys := List.get?_mem ht
  have hlt : t.pfx_id < impl.pfx_table.keys.length := h3 t htm
  have hne : impl.pfx_table.keys ≠ [] :=
    List.length_pos.mp (lt_of_le_of_lt (Nat.zero_le _) hlt)
  have h0 : impl.pfx_table.keys.get? 0 = some (⟨[]⟩ : ReplaceStack) := h4 hne
  constructor
  · intro hz
    rw [hz] at hp
    have hpeq : p = (⟨[]⟩ : ReplaceStack) := Option.some.inj (hp.symm.trans h0)
    rw [hpeq]
  · intro hframes
    have hpe : p = (⟨[]⟩ : ReplaceStack) := by
      cases p
      simp_all
    rw [hpe] at hp
    have hi₁ : idxFrom (⟨[]⟩ : ReplaceStack) impl.pfx_table.keys 0 = some (0 + 0) :=
      idxFrom_nodup_get? _ _ _ _ hnd h0
    have hi₂ : idxFrom (⟨[]⟩ : ReplaceStack) impl.pfx_table.keys 0 = some (0 + t.pfx_id) :=
      idxFrom_nodup_get? _ _ _ _ hnd hp
    rw [hi₁] at hi₂
    injection hi₂ with hi₂
    omega

/-- Coherence only concerns the non-terminal set and hash, so it transfers to
any instance sharing those fields. -/
theorem coherent_of_fields {W : Type} {a b : ReplaceFstImpl W} (h : Coherent a)
    (hset : b.nonterminal_set = a.nonterminal_set)
    (hhash : b.nonterminal_hash = a.nonterminal_hash) : Coherent b := by
  unfold Coherent
  rw [hset, hhash]
  exact h

/-- The call branch of `compute_arc`, isolated: a registered positive
non-terminal output label pushes the caller frame, and either suppresses the
transition (no callee start) or emits the call transition toward the interned
callee-start tuple with the labels dictated by the call-label policy. -/
theorem compute_arc_call {W : Type} {impl : ReplaceFstImpl W} {tuple : ReplaceStateTuple}
    {arc : Tr W} {cstar : Nat} {p : ReplaceStack} {ntFst : Fst W}
    (hcoh : Coherent impl)
    (hreg : impl.nonterminal_hash arc.olabel = some cstar)
    (hpos : 0 < arc.olabel)
    (hpfx : impl.pfx_table.find_tuple tuple.pfx_id = some p)
    (hntf : impl.fst_array.get? cstar = some ntFst) :
    (ntFst.start = none → impl.compute_arc tuple arc =
      (.ok none, (pushPfx impl p tuple.fst_id (some arc.nextstate)).2)) ∧
    (∀ q0, ntFst.start = some q0 → impl.compute_arc tuple arc =
      (.ok (some ⟨(if epsilon_on_input impl.call_label_type_ then 0 else arc.ilabel),
        (if epsilon_on_output impl.call_label_type_ then 0
          else impl.call_output_label_.getD arc.olabel),
        arc.weight,
        (getTupleId (pushPfx impl p tuple.fst_id (some arc.nextstate)).2
          ⟨(pushPfx impl p tuple.fst_id (some arc.nextstate)).1, some cstar, some q0⟩).1⟩),
       (getTupleId (pushPfx impl p tuple.fst_id (some arc.nextstate)).2
          ⟨(pushPfx impl p tuple.fst_id (some arc.nextstate)).1, some cstar, some q0⟩).2)) := by
  have hmem : arc.olabel ∈ impl.nonterminal_set := hcoh.2 arc.olabel cstar hreg
  obtain ⟨nmin, hh, hmin⟩ := sorted_head_le hcoh.1 hmem
  obtain ⟨nmax, hl, hmax⟩ := sorted_le_getLast impl.nonterminal_set arc.olabel hcoh.1 hmem
  have hbuild : impl.compute_arc tuple arc =
      (match (pushPfx impl p tuple.fst_id (some arc.nextstate)).2.fst_array.get? cstar with
       | none => (.error "unwrap failed: fst_array index out of range",
           (pushPfx impl p tuple.fst_id (some arc.nextstate)).2)
       | some ntFst =>
         match ntFst.start with
         | some nt_start =>
           (.ok (some ⟨(if epsilon_on_input impl.call_label_type_ then 0 else arc.ilabel),
             (if epsilon_on_output impl.call_label_type_ then 0
               else impl.call_output_label_.getD arc.olabel),
             arc.weight,
             (getTupleId (pushPfx impl p tuple.fst_id (some arc.nextstate)).2
               ⟨(pushPfx impl p tuple.fst_id (some arc.nextstate)).1, some cstar,
                 some nt_start⟩).1⟩),
            (getTupleId (pushPfx impl p tuple.fst_id (some arc.nextstate)).2
              ⟨(pushPfx impl p tuple.fst_id (some arc.nextstate)).1, some cstar,
                some nt_start⟩).2)
         | none => (.ok none, (pushPfx impl p tuple.fst_id (some arc.nextstate)).2)) := by
    unfold ReplaceFstImpl.compute_arc
    rw [if_neg (Nat.pos_iff_ne_zero.mp hpos), hh, hl]
    dsimp only
    rw [if_neg (by
      simp only [Bool.or_eq_true, decide_eq_true_eq, not_or]
      exact ⟨Nat.not_lt.mpr hmin, Nat.not_lt.mpr hmax⟩ :
        ¬(arc.olabel < nmin || nmax < arc.olabel) = true), hreg, hpfx]
  have harr : (pushPfx impl p tuple.fst_id (some arc.nextstate)).2.fst_array.get? cstar =
      some ntFst := hntf
  rw [harr] at hbuild
  dsimp only at hbuild
  constructor
  · intro hs
    rw [hs] at hbuild
    exact hbuild
  · intro q0 hs
    rw [hs] at hbuild
    exact hbuild

theorem newW0 : ReplaceFstImpl.new listW optsW = .ok implW0 := rfl

theorem reachW1 : Reachable implW1 :=
  Reachable.step_start implW0 (Reachable.new_ok listW optsW implW0 newW0)

theorem reachW2 : Reachable implW2 := Reachable.step_expand implW1 0 reachW1

theorem reachW3 : Reachable implW3 := Reachable.step_expand implW2 1 reachW2

theorem newE0 : ReplaceFstImpl.new listW optsE = .ok implE0 := rfl

theorem newF0 : ReplaceFstImpl.new listF (ReplaceFstOptions.new 10 false) = .ok implF0 := rfl

theorem newC0 : ReplaceFstImpl.new listC (ReplaceFstOptions.new 10 false) = .ok implC0 := rfl

theorem reachC1 : Reachable implC1 :=
  Reachable.step_start implC0
    (Reachable.new_ok listC (ReplaceFstOptions.new 10 false) implC0 newC0)

theorem reachC2 : Reachable implC2 := Reachable.step_expand implC1 0 reachC1

theorem reachC2b : Reachable implC2b := Reachable.step_expand implC2 2 reachC2

theorem newD0 : ReplaceFstImpl.new listD (ReplaceFstOptions.new 10 false) = .ok implD0 := rfl

/-! ### The claims -/

/-- C9: in every reachable instance state, prefix identifier `0` denotes the
empty prefix: for every issued result state, the `prefix_id == 0` test of
`compute_final` and the `prefix_id > 0` test of `compute_final_arc` coincide
with "the prefix is empty" / "the prefix is non-empty". -/
theorem C9_prefix_zero_is_empty {W : Type} {impl : ReplaceFstImpl W}
    (hreach : Reachable impl) {s : StateId} {t : ReplaceStateTuple} {p : ReplaceStack}
    (ht : impl.tuple_table.find_tuple s = some t)
    (hp : impl.pfx_table.find_tuple t.pfx_id = some p) :
    (t.pfx_id = 0 ↔ p.frames = []) ∧ (0 < t.pfx_id ↔ p.frames ≠ []) := by
  have hiff := inv_pfx_zero_iff (reachable_inv hreach) ht hp
  refine ⟨hiff, ?_, ?_⟩
  · intro hpos hcon
    have := hiff.mpr hcon
    omega
  · intro hne
    rcases Nat.eq_zero_or_pos t.pfx_id with h | h
    · exact absurd (hiff.mp h) hne
    · exact h

theorem C9_witness :
    implW2.tuple_table.find_tuple 1 = some ⟨1, some 1, some 0⟩ ∧
    implW2.pfx_table.find_tuple 1 = some ⟨[⟨some 0, some 1⟩]⟩ ∧
    ((1 = 0 ↔ ([⟨some 0, some 1⟩] : List StackFrame) = []) ∧
      (0 < 1 ↔ ([⟨some 0, some 1⟩] : List StackFrame) ≠ [])) :=
  ⟨by decide, by decide,
    C9_prefix_zero_is_empty reachW2
      (by decide : implW2.tuple_table.find_tuple 1 = some ⟨1, some 1, some 0⟩)
      (by decide : implW2.pfx_table.find_tuple 1 = some ⟨[⟨some 0, some 1⟩]⟩)⟩

/-- C1: for every exposed result state with tuple `(p, c, q)` (`c` and `q`
present), the final weight is defined iff `p` is the empty prefix and `q` is
final in component `c`, and it then equals the component's final weight at `q`;
every state with a non-empty prefix has no final weight. -/
theorem C1_finality_placement {W : Type} {impl : ReplaceFstImpl W}
    (hreach : Reachable impl) {s : StateId} {pid c q : Nat} {f : Fst W} {p : ReplaceStack}
    (ht : impl.tuple_table.find_tuple s = some ⟨pid, some c, some q⟩)
    (hf : impl.fst_array.get? c = some f)
    (hp : impl.pfx_table.find_tuple pid = some p) :
    (∀ w : W, impl.compute_final s = .ok (some w) ↔
      (p.frames = [] ∧ f.final_weight q = some w)) ∧
    (p.frames ≠ [] → impl.compute_final s = .ok none) := by
  have hiff : pid = 0 ↔ p.frames = [] :=
    inv_pfx_zero_iff (reachable_inv hreach) ht hp
  have hcf : impl.compute_final s = .ok (if pid = 0 then f.final_weight q else none) := by
    unfold ReplaceFstImpl.compute_final
    rw [ht]
    dsimp only
    by_cases hz : pid = 0
    · rw [if_pos hz, if_pos hz, hf]
    · rw [if_neg hz, if_neg hz]
  constructor
  · intro w
    constructor
    · intro hw
      rw [hcf] at hw
      by_cases hz : pid = 0
      · rw [if_pos hz] at hw
        injection hw with hw
        exact ⟨hiff.mp hz, hw⟩
      · rw [if_neg hz] at hw
        injection hw with hw
        exact Option.noConfusion hw
    · rintro ⟨hfe, hwq⟩
      have hz := hiff.mpr hfe
      rw [hcf, if_pos hz, hwq]
  · intro hne
    have hz : ¬pid = 0 := fun hz => hne (hiff.mp hz)
    rw [hcf, if_neg hz]

theorem C1_witness :
    implW3.tuple_table.find_tuple 2 = some ⟨0, some 0, some 1⟩ ∧
    Away.final_weight 1 = some 7 ∧
    ((∀ w : Nat, implW3.compute_final 2 = .ok (some w) ↔
        ((⟨[]⟩ : ReplaceStack).frames = [] ∧ Away.final_weight 1 = some w)) ∧
      ((⟨[]⟩ : ReplaceStack).frames ≠ [] → implW3.compute_final 2 = .ok none)) :=
  ⟨by decide, rfl,
    C1_finality_placement reachW3
      (by decide : implW3.tuple_table.find_tuple 2 = some ⟨0, some 0, some 1⟩)
      (rfl : implW3.fst_array.get? 0 = some Away)
      (by decide : implW3.pfx_table.find_tuple 0 = some ⟨[]⟩)⟩

/-- C4: range-pruning equivalence — for every transition whose output label is
`0`, below the smallest registered non-terminal, above the largest, or within
that range but not registered, the rewrite emits exactly the pure-terminal
result `(i, o, w, intern((p, c, q')))`. -/
theorem C4_range_pruning {W : Type} (impl : ReplaceFstImpl W) (tuple : ReplaceStateTuple)
    (arc : Tr W)
    (h : arc.olabel = 0 ∨ ∃ nmin nmax, impl.nonterminal_set.head? = some nmin ∧
      impl.nonterminal_set.getLast? = some nmax ∧
      (arc.olabel < nmin ∨ nmax < arc.olabel ∨
        (nmin ≤ arc.olabel ∧ arc.olabel ≤ nmax ∧ impl.nonterminal_hash arc.olabel = none))) :
    impl.compute_arc tuple arc = pureTerminalRewrite impl tuple arc := by
  unfold ReplaceFstImpl.compute_arc pureTerminalRewrite
  by_cases h0 : arc.olabel = 0
  · rw [if_pos h0]
  · rw [if_neg h0]
    rcases h with h | ⟨nmin, nmax, hh, hl, hcase⟩
    · exact absurd h h0
    · rw [hh, hl]
      dsimp only
      rcases hcase with hlt | hgt | ⟨h1, h2, hnone⟩
      · rw [if_pos (by
          simp only [Bool.or_eq_true, decide_eq_true_eq]
          exact Or.inl hlt : (arc.olabel < nmin || nmax < arc.olabel) = true)]
      · rw [if_pos (by
          simp only [Bool.or_eq_true, decide_eq_true_eq]
          exact Or.inr hgt : (arc.olabel < nmin || nmax < arc.olabel) = true)]
      · rw [if_neg (by
          simp only [Bool.or_eq_true, decide_eq_true_eq, not_or]
          exact ⟨Nat.not_lt.mpr h1, Nat.not_lt.mpr h2⟩ :
            ¬(arc.olabel < nmin || nmax < arc.olabel) = true), hnone]

theorem C4_witness :
    (implW1.nonterminal_set.head? = some 10 ∧ implW1.nonterminal_set.getLast? = some 20 ∧
      implW1.nonterminal_hash 15 = none) ∧
    implW1.compute_arc ⟨0, some 0, some 0⟩ ⟨7, 15, 9, 1⟩ =
      pureTerminalRewrite implW1 ⟨0, some 0, some 0⟩ ⟨7, 15, 9, 1⟩ :=
  ⟨⟨by decide, by decide, rfl⟩,
    C4_range_pruning implW1 ⟨0, some 0, some 0⟩ ⟨7, 15, 9, 1⟩
      (Or.inr ⟨10, 20, by decide, by decide, Or.inr (Or.inr ⟨by decide, by decide, rfl⟩)⟩)⟩

/-- C5: construction returns an error iff the root label is not among the
labels of the supplied component pairs; on success the root is resolved to the
component index the label map associates with that label. -/
theorem C5_unknown_root {W : Type} (fst_list : List (Label × Fst W))
    (opts : ReplaceFstOptions) :
    ((∃ impl, ReplaceFstImpl.new fst_list opts = .ok impl) ↔
      opts.root ∈ fst_list.map Prod.fst) ∧
    (∀ impl, ReplaceFstImpl.new fst_list opts = .ok impl →
      (registerComponents fst_list ([], [], fun _ => none)).2.2 opts.root =
        some impl.root) := by
  constructor
  · constructor
    · rintro ⟨impl, h⟩
      have h4 := (new_fields h).2.2.2
      have hsome := (registerComponents_hash_some fst_list [] [] (fun _ => none)
        opts.root).mp ⟨impl.root, h4⟩
      rcases hsome with ⟨c, hc⟩ | hmem
      · exact Option.noConfusion hc
      · exact hmem
    · intro hmem
      obtain ⟨c, hc⟩ := (registerComponents_hash_some fst_list [] [] (fun _ => none)
        opts.root).mpr (Or.inr hmem)
      unfold ReplaceFstImpl.new
      dsimp only
      rw [hc]
      exact ⟨_, rfl⟩
  · intro impl h
    exact (new_fields h).2.2.2

theorem C5_witness :
    (∃ impl, ReplaceFstImpl.new listW optsW = .ok impl) ∧
    ¬(∃ impl, ReplaceFstImpl.new listW (ReplaceFstOptions.new 99 false) = .ok impl) ∧
    (registerComponents listW ([], [], fun _ => none)).2.2 10 = some implW0.root :=
  ⟨(C5_unknown_root listW optsW).1.mpr (by decide),
   fun hex => absurd ((C5_unknown_root listW (ReplaceFstOptions.new 99 false)).1.mp hex)
     (by decide),
   (C5_unknown_root listW optsW).2 implW0 newW0⟩

/-- C10 as frozen is refuted: on an instance construction just returned,
`compute_arc` is not total — a registered non-terminal output label reaches the
stack interner with a prefix identifier that was never issued, and the
`find_tuple` lookup panics there (the min/max unwraps are not the culprit). -/
theorem C10_counterexample :
    ReplaceFstImpl.new listD (ReplaceFstOptions.new 10 false) = .ok implD0 ∧
    (implD0.compute_arc ⟨0, some 0, some 0⟩ ⟨1, 10, 0, 0⟩).1 =
      .error "find_tuple: identifier never issued" :=
  ⟨newD0, rfl⟩

/-- C10 (amended): after every successful construction the registered
non-terminal set is non-empty (it contains the label resolved as root), so the
minimum/maximum lookups in `compute_arc`'s range check are always defined and
`compute_arc` can never fail through the empty-set unwrap — on the constructed
engine state or on any engine state sharing its non-terminal set. -/
theorem C10_minmax_defined {W : Type} {fst_list : List (Label × Fst W)}
    {opts : ReplaceFstOptions} {impl : ReplaceFstImpl W}
    (h : ReplaceFstImpl.new fst_list opts = .ok impl) :
    impl.nonterminal_set ≠ [] ∧
    (∃ nmin, impl.nonterminal_set.head? = some nmin) ∧
    (∃ nmax, impl.nonterminal_set.getLast? = some nmax) ∧
    (∀ (impl' : ReplaceFstImpl W) (tuple : ReplaceStateTuple) (arc : Tr W),
      impl'.nonterminal_set = impl.nonterminal_set →
      (impl'.compute_arc tuple arc).1 ≠ .error "unwrap failed: empty nonterminal set") := by
  have hco := new_coherent h
  have hroot : impl.nonterminal_hash opts.root = some impl.root := by
    have hf := new_fields h
    rw [hf.2.2.1]
    exact hf.2.2.2
  have hmem : opts.root ∈ impl.nonterminal_set := hco.2 opts.root impl.root hroot
  have hne : impl.nonterminal_set ≠ [] := by
    intro hcon
    rw [hcon] at hmem
    simp at hmem
  obtain ⟨nmin, hh⟩ := ne_nil_head?_some hne
  obtain ⟨nmax, hl⟩ := ne_nil_getLast?_some _ hne
  refine ⟨hne, ⟨nmin, hh⟩, ⟨nmax, hl⟩, ?_⟩
  intro impl' tuple arc hset hcontra
  unfold ReplaceFstImpl.compute_arc at hcontra
  by_cases h0 : arc.olabel = 0
  · rw [if_pos h0] at hcontra
    dsimp only at hcontra
    exact Except.noConfusion hcontra
  · rw [if_neg h0, hset, hh, hl] at hcontra
    dsimp only at hcontra
    by_cases hrange : arc.olabel < nmin || nmax < arc.olabel
    · rw [if_pos hrange] at hcontra
      dsimp only at hcontra
      exact Except.noConfusion hcontra
    · rw [if_neg hrange] at hcontra
      rcases hnt : impl'.nonterminal_hash arc.olabel with _ | nt
      all_goals rw [hnt] at hcontra
      all_goals try dsimp only at hcontra
      · exact Except.noConfusion hcontra
      · rcases hp : impl'.pfx_table.find_tuple tuple.pfx_id with _ | p
        all_goals rw [hp] at hcontra
        all_goals try dsimp only at hcontra
        · injection hcontra with hstr
          exact absurd hstr (by decide)
        · rcases hg : (pushPfx impl' p tuple.fst_id (some arc.nextstate)).2.fst_array.get? nt
            with _ | ntFst
          all_goals rw [hg] at hcontra
          all_goals try dsimp only at hcontra
          · injection hcontra with hstr
            exact absurd hstr (by decide)
          · rcases hs : ntFst.start with _ | q0
            all_goals rw [hs] at hcontra
            all_goals try dsimp only at hcontra
            · exact Except.noConfusion hcontra
            · exact Except.noConfusion hcontra

theorem C10_witness :
    implD0.nonterminal_set ≠ [] ∧
    (implD0.compute_arc ⟨0, some 0, some 0⟩ ⟨1, 1, 0, 0⟩).1 ≠
      .error "unwrap failed: empty nonterminal set" :=
  ⟨(C10_minmax_defined newD0).1,
    (C10_minmax_defined newD0).2.2.2 implD0 ⟨0, some 0, some 0⟩ ⟨1, 1, 0, 0⟩ rfl⟩

/-- C3: call rewrite — for a transition whose output label is a registered
(positive) non-terminal resolving to component `c*`: if the callee has no start
state the transition is suppressed (nothing emitted, though the pushed prefix
is interned); otherwise exactly one transition is emitted with the original
weight, target the interned tuple `(push(p,(c,q')), c*, start(c*))`, input
label `0` iff the call-label policy is `Neither` or `Output` else `i`, and
output label `0` iff the policy is `Neither` or `Input`, else the configured
`call_output_label` if set, else `o`. -/
theorem C3_call_rewrite {W : Type} {impl : ReplaceFstImpl W} {tuple : ReplaceStateTuple}
    {arc : Tr W} {cstar : Nat} {p : ReplaceStack} {ntFst : Fst W}
    (hcoh : Coherent impl)
    (hreg : impl.nonterminal_hash arc.olabel = some cstar)
    (hpos : 0 < arc.olabel)
    (hpfx : impl.pfx_table.find_tuple tuple.pfx_id = some p)
    (hntf : impl.fst_array.get? cstar = some ntFst) :
    (ntFst.start = none → impl.compute_arc tuple arc =
      (.ok none, (pushPfx impl p tuple.fst_id (some arc.nextstate)).2)) ∧
    (∀ q0, ntFst.start = some q0 → impl.compute_arc tuple arc =
      (.ok (some ⟨(if epsilon_on_input impl.call_label_type_ then 0 else arc.ilabel),
        (if epsilon_on_output impl.call_label_type_ then 0
          else impl.call_output_label_.getD arc.olabel),
        arc.weight,
        (getTupleId (pushPfx impl p tuple.fst_id (some arc.nextstate)).2
          ⟨(pushPfx impl p tuple.fst_id (some arc.nextstate)).1, some cstar, some q0⟩).1⟩),
       (getTupleId (pushPfx impl p tuple.fst_id (some arc.nextstate)).2
          ⟨(pushPfx impl p tuple.fst_id (some arc.nextstate)).1, some cstar, some q0⟩).2)) :=
  compute_arc_call hcoh hreg hpos hpfx hntf

theorem C3_witness :
    implW1.nonterminal_hash 20 = some 1 ∧ Bway.start = some 0 ∧
    (implW1.compute_arc ⟨0, some 0, some 0⟩ ⟨1, 20, 3, 1⟩).1 = .ok (some ⟨1, 0, 3, 1⟩) := by
  refine ⟨rfl, rfl, ?_⟩
  rw [(@C3_call_rewrite Nat implW1 ⟨0, some 0, some 0⟩ ⟨1, 20, 3, 1⟩ 1 ⟨[]⟩ Bway
    (coherent_of_fields (new_coherent newW0) rfl rfl) rfl (by decide)
    (by decide : implW1.pfx_table.find_tuple 0 = some ⟨[]⟩)
    (rfl : implW1.fst_array.get? 1 = some Bway)).2 0 rfl]
  rfl

/-- C6: label-policy collapse under `epsilon_on_replace` — construction with
`epsilon_on_replace = true` forces both label policies to `Neither`; under
`Neither` every emitted call transition and every emitted return transition
carries label `0` on both sides, and the policies are preserved by every
engine operation. -/
theorem C6_epsilon_collapse {W : Type} :
    (∀ (root : Label) (l : List (Label × Fst W)) (impl : ReplaceFstImpl W),
      ReplaceFstImpl.new l (ReplaceFstOptions.new root true) = .ok impl →
      impl.call_label_type_ = .ReplaceLabelNeither ∧
        impl.return_label_type_ = .ReplaceLabelNeither) ∧
    (∀ (impl : ReplaceFstImpl W) (tuple : ReplaceStateTuple) (arc : Tr W) (cstar : Nat)
      (p : ReplaceStack) (ntFst : Fst W),
      impl.call_label_type_ = .ReplaceLabelNeither →
      Coherent impl → impl.nonterminal_hash arc.olabel = some cstar → 0 < arc.olabel →
      impl.pfx_table.find_tuple tuple.pfx_id = some p →
      impl.fst_array.get? cstar = some ntFst →
      ∀ (a : Tr W) (impl₁ : ReplaceFstImpl W),
        impl.compute_arc tuple arc = (.ok (some a), impl₁) →
        a.ilabel = 0 ∧ a.olabel = 0) ∧
    (∀ (impl : ReplaceFstImpl W) (s : StateId) (a : Tr W) (impl₁ : ReplaceFstImpl W),
      impl.return_label_type_ = .ReplaceLabelNeither →
      impl.compute_final_arc s = (.ok (some a), impl₁) →
      a.ilabel = 0 ∧ a.olabel = 0) ∧
    (∀ (impl : ReplaceFstImpl W) (s : StateId),
      ((impl.expand s).2.call_label_type_ = impl.call_label_type_ ∧
        (impl.expand s).2.return_label_type_ = impl.return_label_type_) ∧
      (impl.compute_start.2.call_label_type_ = impl.call_label_type_ ∧
        impl.compute_start.2.return_label_type_ = impl.return_label_type_)) := by
  refine ⟨?_, ?_, ?_, ?_⟩
  · intro root l impl h
    unfold ReplaceFstImpl.new at h
    dsimp only at h
    rcases hroot : (registerComponents l ([], [], fun _ => none)).2.2
        (ReplaceFstOptions.new root true).root with _ | r
    all_goals rw [hroot] at h
    all_goals dsimp only at h
    · exact Except.noConfusion h
    · injection h with h
      subst h
      exact ⟨rfl, rfl⟩
  · intro impl tuple arc cstar p ntFst hclt hcoh hreg hpos hpfx hntf a impl₁ h
    have hc := compute_arc_call hcoh hreg hpos hpfx hntf
    rcases hs : ntFst.start with _ | q0
    · rw [hc.1 hs] at h
      injection h with h1 _
      injection h1 with h1
      exact Option.noConfusion h1
    · rw [hc.2 q0 hs] at h
      injection h with h1 _
      injection h1 with h1
      injection h1 with h1
      rw [← h1, hclt]
      exact ⟨rfl, rfl⟩
  · intro impl s a impl₁ hrlt h
    unfold ReplaceFstImpl.compute_final_arc at h
    rcases ht : impl.tuple_table.find_tuple s with _ | tuple
    all_goals rw [ht] at h
    all_goals try dsimp only at h
    · exact absurd h (by intro hc; injection hc with hc; exact Except.noConfusion hc)
    · rcases hq : tuple.fst_state with _ | q
      all_goals rw [hq] at h
      all_goals try dsimp only at h
      · injection h with h1 _
        injection h1 with h1
        exact Option.noConfusion h1
      · rcases hfid : tuple.fst_id with _ | fid
        all_goals rw [hfid] at h
        all_goals try dsimp only at h
        · exact absurd h (by intro hc; injection hc with hc; exact Except.noConfusion hc)
        · rcases hg : impl.fst_array.get? fid with _ | f
          all_goals rw [hg] at h
          all_goals try dsimp only at h
          · exact absurd h (by intro hc; injection hc with hc; exact Except.noConfusion hc)
          · by_cases hfin : f.is_final q && decide (0 < tuple.pfx_id)
            · rw [if_pos hfin] at h
              try dsimp only at h
              rcases hp : impl.pfx_table.find_tuple tuple.pfx_id with _ | stack
              all_goals rw [hp] at h
              all_goals try dsimp only at h
              · exact absurd h (by intro hc; injection hc with hc; exact Except.noConfusion hc)
              · rcases htop : stack.top with _ | top
                all_goals rw [htop] at h
                all_goals try dsimp only at h
                · exact absurd h
                    (by intro hc; injection hc with hc; exact Except.noConfusion hc)
                · rcases hw : f.final_weight q with _ | w
                  all_goals rw [hw] at h
                  all_goals try dsimp only at h
                  · injection h with h1 _
                    injection h1 with h1
                    exact Option.noConfusion h1
                  · injection h with h1 _
                    injection h1 with h1
                    injection h1 with h1
                    rw [← h1, hrlt]
                    exact ⟨rfl, rfl⟩
            · rw [if_neg hfin] at h
              injection h with h1 _
              injection h1 with h1
              exact Option.noConfusion h1
  · intro impl s
    exact ⟨⟨(expand_ext impl s).clt, (expand_ext impl s).rlt⟩,
      ⟨(compute_start_ext impl).clt, (compute_start_ext impl).rlt⟩⟩

theorem C6_witness :
    (implE0.call_label_type_ = .ReplaceLabelNeither ∧
      implE0.return_label_type_ = .ReplaceLabelNeither) ∧
    ((⟨0, 0, 3, 1⟩ : Tr Nat).ilabel = 0 ∧ (⟨0, 0, 3, 1⟩ : Tr Nat).olabel = 0) ∧
    ((⟨0, 0, 5, 2⟩ : Tr Nat).ilabel = 0 ∧ (⟨0, 0, 5, 2⟩ : Tr Nat).olabel = 0) ∧
    (((implE1.expand 0).2.call_label_type_ = implE1.call_label_type_ ∧
      (implE1.expand 0).2.return_label_type_ = implE1.return_label_type_) ∧
      (implE1.compute_start.2.call_label_type_ = implE1.call_label_type_ ∧
        implE1.compute_start.2.return_label_type_ = implE1.return_label_type_)) :=
  ⟨(C6_epsilon_collapse).1 10 listW implE0 newE0,
   (C6_epsilon_collapse).2.1 implE1 ⟨0, some 0, some 0⟩ ⟨1, 20, 3, 1⟩ 1 ⟨[]⟩ Bway rfl
     (coherent_of_fields (new_coherent newE0) rfl rfl) rfl (by decide)
     (by decide : implE1.pfx_table.find_tuple 0 = some ⟨[]⟩)
     (rfl : implE1.fst_array.get? 1 = some Bway) ⟨0, 0, 3, 1⟩
     (implE1.compute_arc ⟨0, some 0, some 0⟩ ⟨1, 20, 3, 1⟩).2 rfl,
   (C6_epsilon_collapse).2.2.1 implE2 1 ⟨0, 0, 5, 2⟩ (implE2.compute_final_arc 1).2 rfl rfl,
   (C6_epsilon_collapse).2.2.2 implE1 0⟩

/-- C2: return-on-finality and ordering — for a result state whose underlying
state is final with weight `w` and whose stack is non-empty with top frame
`(c_ret, q_ret)`, `expand` emits exactly one synthetic return transition, first,
targeting the interned tuple of the popped stack and `(c_ret, q_ret)`, weighted
`w`, labelled per the return-label policy, followed by the rewrites of the
component transitions in their native order. -/
theorem C2_return_on_finality {W : Type} {impl : ReplaceFstImpl W} {s : StateId}
    {pid c q : Nat} {f : Fst W} {stack : ReplaceStack} {cRet qRet : Nat} {w : W}
    (ht : impl.tuple_table.find_tuple s = some ⟨pid, some c, some q⟩)
    (hf : impl.fst_array.get? c = some f)
    (hw : f.final_weight q = some w)
    (hpid : 0 < pid)
    (hstack : impl.pfx_table.find_tuple pid = some stack)
    (htop : stack.top = some ⟨some cRet, some qRet⟩)
    (hq : q < f.num_states) :
    impl.expand s =
      (match expandLoop ⟨pid, some c, some q⟩
          (getTupleId (popPfx impl stack).2 ⟨(popPfx impl stack).1, some cRet, some qRet⟩).2
          (f.arcs q) with
       | (.ok rest, implF) =>
         (.ok (Tr.mk
            (if epsilon_on_input impl.return_label_type_ then 0 else impl.return_label_)
            (if epsilon_on_output impl.return_label_type_ then 0 else impl.return_label_)
            w
            (getTupleId (popPfx impl stack).2
              ⟨(popPfx impl stack).1, some cRet, some qRet⟩).1 :: rest), implF)
       | (.error e, implF) => (.error e, implF)) := by
  have hfa : impl.compute_final_arc s =
      (.ok (some ⟨(if epsilon_on_input impl.return_label_type_ then 0 else impl.return_label_),
        (if epsilon_on_output impl.return_label_type_ then 0 else impl.return_label_), w,
        (getTupleId (popPfx impl stack).2 ⟨(popPfx impl stack).1, some cRet, some qRet⟩).1⟩),
       (getTupleId (popPfx impl stack).2 ⟨(popPfx impl stack).1, some cRet, some qRet⟩).2) := by
    unfold ReplaceFstImpl.compute_final_arc
    rw [ht]
    dsimp only
    rw [hf]
    dsimp only
    rw [if_pos (by
      simp only [Bool.and_eq_true, decide_eq_true_eq]
      exact ⟨by simp [Fst.is_final, hw], hpid⟩ :
        (f.is_final q && decide (0 < pid)) = true)]
    rw [hstack]
    dsimp only
    rw [htop]
    dsimp only
    rw [hw]
  unfold ReplaceFstImpl.expand
  rw [ht]
  dsimp only
  rw [hfa]
  dsimp only
  rw [show (getTupleId (popPfx impl stack).2
      ⟨(popPfx impl stack).1, some cRet, some qRet⟩).2.fst_array.get? c = some f from hf]
  dsimp only
  rw [show f.arcs_iter q = .ok (f.arcs q) from by unfold Fst.arcs_iter; rw [if_pos hq]]
  dsimp only
  rcases hel : expandLoop ⟨pid, some c, some q⟩
      (getTupleId (popPfx impl stack).2 ⟨(popPfx impl stack).1, some cRet, some qRet⟩).2
      (f.arcs q) with ⟨res, implF⟩
  rcases res with e | rest
  all_goals simp [Option.toList]

theorem C2_witness :
    Bway.final_weight 0 = some 5 ∧
    implW2.pfx_table.find_tuple 1 = some ⟨[⟨some 0, some 1⟩]⟩ ∧
    (implW2.expand 1).1 = .ok [⟨0, 0, 5, 2⟩] := by
  refine ⟨rfl, by decide, ?_⟩
  rw [@C2_return_on_finality Nat implW2 1 1 1 0 Bway ⟨[⟨some 0, some 1⟩]⟩ 0 1 5
    (by decide) rfl rfl (by decide) (by decide) (by decide) (by decide)]
  rfl

/-- C7: expansion-error propagation and atomicity — a collaborator error
arising during expansion is surfaced untransformed from the facade operation
that triggered it (transition query and final-weight query alike), and the
expansion cache is unchanged: no partial writes are visible. -/
theorem C7_error_propagation {W : Type} (r : ReplaceFst W) (s : StateId) (e : String)
    (hmiss : r.cache.expandedF s = false)
    (herr : (r.fst_impl.expand s).1 = .error e) :
    (r.trsOp s).1 = .error e ∧ (r.trsOp s).2.cache = r.cache ∧
    (r.finalOp s).1 = .error e ∧ (r.finalOp s).2.cache = r.cache := by
  rcases hx : r.fst_impl.expand s with ⟨res, impl₁⟩
  rw [hx] at herr
  dsimp only at herr
  subst herr
  have hcond : ¬r.cache.expandedF s = true := by
    rw [hmiss]
    exact Bool.false_ne_true
  unfold ReplaceFst.trsOp ReplaceFst.finalOp
  rw [if_neg hcond, if_neg hcond, hx]
  dsimp only
  exact ⟨rfl, rfl, rfl, rfl⟩

theorem C7_witness :
    rFault.cache.expandedF 1 = false ∧
    (rFault.fst_impl.expand 1).1 = .error "ComponentStateOutOfRange" ∧
    ((rFault.trsOp 1).1 = .error "ComponentStateOutOfRange" ∧
      (rFault.trsOp 1).2.cache = rFault.cache ∧
      (rFault.finalOp 1).1 = .error "ComponentStateOutOfRange" ∧
      (rFault.finalOp 1).2.cache = rFault.cache) :=
  ⟨rfl, rfl, C7_error_propagation rFault 1 "ComponentStateOutOfRange" rfl rfl⟩

/-- C8 as frozen is refuted: two reachable instance states of the same grammar
both have the tuple of result state `1` issued, yet expanding state `1` in the
two instance states yields different transition lists (the successor
identifiers depend on the interner contents, not on the tuple and the
component array alone). -/
theorem C8_counterexample :
    Reachable implC2b ∧ Reachable implC2 ∧
    implC2b.tuple_table.find_tuple 1 = some ⟨0, some 0, some 1⟩ ∧
    implC2.tuple_table.find_tuple 1 = some ⟨0, some 0, some 1⟩ ∧
    (implC2b.expand 1).1 = .ok [⟨3, 3, 0, 4⟩, ⟨4, 4, 0, 3⟩] ∧
    (implC2.expand 1).1 = .ok [⟨3, 3, 0, 3⟩, ⟨4, 4, 0, 4⟩] ∧
    ([⟨3, 3, 0, 4⟩, ⟨4, 4, 0, 3⟩] : List (Tr Nat)) ≠ [⟨3, 3, 0, 3⟩, ⟨4, 4, 0, 4⟩] :=
  ⟨reachC2b, reachC2, by decide, by decide, rfl, rfl, by decide⟩

/-- C8 (amended): per-state memoisation is safe — re-running `expand` on the
same state from the instance state the first expansion produced returns the
same transitions and leaves the instance unchanged, and the final weight is
unchanged as well. -/
theorem C8_memoisation_determinism {W : Type} {impl impl' : ReplaceFstImpl W} {s : StateId}
    {arcs : List (Tr W)} (hinv : Inv impl) (h : impl.expand s = (.ok arcs, impl')) :
    impl'.expand s = (.ok arcs, impl') ∧ impl'.compute_final s = impl.compute_final s := by
  refine ⟨expand_replay h hinv, ?_⟩
  have hE : Ext impl impl' := by
    have he := expand_ext impl s
    rw [h] at he
    exact he
  rcases ht : impl.tuple_table.find_tuple s with _ | t
  · exfalso
    unfold ReplaceFstImpl.expand at h
    rw [ht] at h
    dsimp only at h
    injection h with h1 _
    exact Except.noConfusion h1
  · have ht' : impl'.tuple_table.find_tuple s = some t := find_tuple_stable ht hE.tup
    unfold ReplaceFstImpl.compute_final
    rw [ht, ht', hE.arr]

theorem C8_witness :
    Inv implC1 ∧
    (implC2.expand 0 = (.ok [⟨1, 1, 0, 1⟩, ⟨2, 2, 0, 2⟩], implC2) ∧
      implC2.compute_final 0 = implC1.compute_final 0) :=
  ⟨by decide, C8_memoisation_determinism (by decide) rfl⟩

end RustfstReplace
